import Mathlib

/-!
Verification development for the `codeconverter` repository: a PHP-to-JavaScript
transpiler compiled to WebAssembly, driven by a React page (`src/app/page.tsx`).
The transpiler pipeline itself (lexer, parser, code generator, `transpile`
facade) ships only as a WASM binary; its behaviour is modelled here from the
design document, while the UI component is embedded from `src/app/page.tsx`.
All recursive functions use explicit fuel or structural recursion so that every
definition evaluates inside the kernel.
-/

namespace CodeConverter

/-! ### Characters and character classes -/

/-- The double-quote character. -/
def chQuote : Char := Char.ofNat 34

/-- The single-quote character. -/
def chSQuote : Char := Char.ofNat 39

/-- The newline character. -/
def chNL : Char := Char.ofNat 10

/-- The tab character. -/
def chTab : Char := Char.ofNat 9

/-- The carriage-return character. -/
def chCR : Char := Char.ofNat 13

/-- The opening-brace character. -/
def chLBrace : Char := Char.ofNat 123

/-- The closing-brace character. -/
def chRBrace : Char := Char.ofNat 125

/-- The backslash character. -/
def chBS : Char := Char.ofNat 92

/-- A decimal digit (ASCII 48-57). -/
def isDigitCh (c : Char) : Bool := 48 ≤ c.toNat && c.toNat ≤ 57

/-- An ASCII letter. -/
def isAlphaCh (c : Char) : Bool :=
  (65 ≤ c.toNat && c.toNat ≤ 90) || (97 ≤ c.toNat && c.toNat ≤ 122)

/-- First character of an identifier: a letter or an underscore. -/
def isIdentStart (c : Char) : Bool := isAlphaCh c || c = '_'

/-- Subsequent character of an identifier: a letter, a digit or an underscore. -/
def isIdentChar (c : Char) : Bool := isAlphaCh c || isDigitCh c || c = '_'

/-- A digit or the decimal point, the characters a number literal is made of. -/
def isDigitOrDot (c : Char) : Bool := isDigitCh c || c = '.'

/-- Whitespace skipped between tokens. -/
def isSpaceChar (c : Char) : Bool := c = ' ' || c = chTab || c = chNL || c = chCR

/-! ### Tokens

Modelled from the spec: the Token data model of the design document
(kind, literal text, source offset); the transpiler sources are not in the
repository. -/

/-- Token kinds: numbers, identifiers, strings, keywords, operators,
punctuation and end of input. -/
inductive TokKind where
  | num (lit : String)
  | ident (name : String)
  | str (value : String)
  | kw (word : String)
  | op (text : String)
  | punct (c : Char)
  | eof
  deriving DecidableEq

/-- A token together with its source offset, used for error reporting. -/
structure Token where
  kind : TokKind
  pos : Nat
  deriving DecidableEq

/-- Lexing failure: the offset and the unexpected character found there. -/
structure LexError where
  pos : Nat
  unexpectedChar : Char
  deriving DecidableEq

/-- The keywords of the supported PHP subset. -/
def keywords : List String := ["if", "else", "while", "echo"]

/-! ### Lexer

Modelled from the spec: `tokenize` converts PHP source text into tokens,
skipping whitespace and line comments, stripping the `$` sigil from variable
names, lexing decimal integer/float literals and quoted strings with the
canonical escapes, and matching multi-character operators greedily. -/

/-- Lex a number literal starting at the given characters (the first of which
is a digit): the integer part, optionally followed by a decimal point and a
fractional part. Returns the literal characters and the remaining input. -/
def lexNumber (cs : List Char) : List Char × List Char :=
  let ip := cs.takeWhile isDigitCh
  let r1 := cs.dropWhile isDigitCh
  match r1 with
  | '.' :: d :: rest2 =>
    if isDigitCh d then
      (ip ++ '.' :: (d :: rest2).takeWhile isDigitCh,
        (d :: rest2).dropWhile isDigitCh)
    else (ip, r1)
  | _ => (ip, r1)

/-- Lex the body of a quoted string after the opening quote `q`: decodes the
canonical escapes (backslash-n to newline, a backslash before any other
character yields that character, covering the escaped quote and the escaped
backslash), and fails at the opening quote on unterminated input. Returns the
decoded value, the input after the closing quote, and the new offset. -/
def lexStringBody (q : Char) (startPos : Nat) :
    List Char → Nat → List Char → Except LexError (String × List Char × Nat)
  | [], _, _ => .error ⟨startPos, q⟩
  | c :: rest, pos, acc =>
    if c = q then .ok (⟨acc.reverse⟩, rest, pos + 1)
    else if c = chBS then
      match rest with
      | [] => .error ⟨startPos, q⟩
      | e :: rest2 =>
        lexStringBody q startPos rest2 (pos + 2) ((if e = 'n' then chNL else e) :: acc)
    else lexStringBody q startPos rest (pos + 1) (c :: acc)

/-- One fuel unit is spent per lexer step and every step consumes at least one
character, so `length + 1` fuel always suffices. Emits an `eof` token at the
end of input. -/
def lexAux : Nat → List Char → Nat → Except LexError (List Token)
  | 0, _, pos => .error ⟨pos, ' '⟩
  | _ + 1, [], pos => .ok [⟨.eof, pos⟩]
  | fuel + 1, c :: cs, pos =>
    if isSpaceChar c then lexAux fuel cs (pos + 1)
    else if c = '#' then
      lexAux fuel (cs.dropWhile (fun d => d != chNL))
        (pos + 1 + (cs.takeWhile (fun d => d != chNL)).length)
    else if c = '/' && cs.head? = some '/' then
      lexAux fuel (cs.dropWhile (fun d => d != chNL))
        (pos + 1 + (cs.takeWhile (fun d => d != chNL)).length)
    else if c = '$' then
      match cs with
      | d :: _ =>
        if isIdentStart d then
          (⟨.ident ⟨cs.takeWhile isIdentChar⟩, pos⟩ :: ·) <$>
            lexAux fuel (cs.dropWhile isIdentChar)
              (pos + 1 + (cs.takeWhile isIdentChar).length)
        else .error ⟨pos, c⟩
      | [] => .error ⟨pos, c⟩
    else if isDigitCh c then
      (⟨.num ⟨(lexNumber (c :: cs)).1⟩, pos⟩ :: ·) <$>
        lexAux fuel (lexNumber (c :: cs)).2 (pos + (lexNumber (c :: cs)).1.length)
    else if isIdentStart c then
      if (⟨(c :: cs).takeWhile isIdentChar⟩ : String) ∈ keywords then
        (⟨.kw ⟨(c :: cs).takeWhile isIdentChar⟩, pos⟩ :: ·) <$>
          lexAux fuel ((c :: cs).dropWhile isIdentChar)
            (pos + ((c :: cs).takeWhile isIdentChar).length)
      else .error ⟨pos, c⟩
    else if c = chQuote || c = chSQuote then
      match lexStringBody c pos cs (pos + 1) [] with
      | .ok (s, rest, pos2) => (⟨.str s, pos⟩ :: ·) <$> lexAux fuel rest pos2
      | .error e => .error e
    else if c = '<' then
      match cs with
      | '=' :: rest => (⟨.op "<=", pos⟩ :: ·) <$> lexAux fuel rest (pos + 2)
      | _ => (⟨.op "<", pos⟩ :: ·) <$> lexAux fuel cs (pos + 1)
    else if c = '>' then
      match cs with
      | '=' :: rest => (⟨.op ">=", pos⟩ :: ·) <$> lexAux fuel rest (pos + 2)
      | _ => (⟨.op ">", pos⟩ :: ·) <$> lexAux fuel cs (pos + 1)
    else if c = '=' then
      match cs with
      | '=' :: rest => (⟨.op "==", pos⟩ :: ·) <$> lexAux fuel rest (pos + 2)
      | _ => (⟨.op "=", pos⟩ :: ·) <$> lexAux fuel cs (pos + 1)
    else if c = '!' then
      match cs with
      | '=' :: rest => (⟨.op "!=", pos⟩ :: ·) <$> lexAux fuel rest (pos + 2)
      | _ => .error ⟨pos, c⟩
    else if c = '+' || c = '-' || c = '*' || c = '/' then
      (⟨.op ⟨[c]⟩, pos⟩ :: ·) <$> lexAux fuel cs (pos + 1)
    else if c = '(' || c = ')' || c = chLBrace || c = chRBrace || c = ';' then
      (⟨.punct c, pos⟩ :: ·) <$> lexAux fuel cs (pos + 1)
    else .error ⟨pos, c⟩

/-- Modelled from the spec: the lexer stage of the transpiler, absent from the
repository sources. Converts PHP source text into a token sequence or fails
with a `LexError`. -/
def tokenize (src : String) : Except LexError (List Token) :=
  lexAux (src.toList.length + 1) src.toList 0

/-! ### Abstract syntax tree

Modelled from the spec: the AST node families of the design document.
Statement blocks are a mutually inductive list type so that all recursion over
the tree is structural; an `if` without an `else` is a separate constructor. -/

/-- The binary operators of the supported subset. -/
inductive BinOp where
  | add | sub | mul | div | lt | gt | le | ge | eq | ne
  deriving DecidableEq

/-- The source spelling of a binary operator (identical in PHP and in the
generated JavaScript for this subset). -/
def BinOp.text : BinOp → String
  | .add => "+"
  | .sub => "-"
  | .mul => "*"
  | .div => "/"
  | .lt => "<"
  | .gt => ">"
  | .le => "<="
  | .ge => ">="
  | .eq => "=="
  | .ne => "!="

/-- Expression nodes: number literals (kept as their source spelling), string
literals (decoded value), variable references and binary operations. -/
inductive Expr where
  | numLit (lit : String)
  | strLit (value : String)
  | var (name : String)
  | bin (op : BinOp) (l r : Expr)
  deriving DecidableEq

mutual

/-- Statement nodes of the supported subset. -/
inductive Stmt where
  | assign (name : String) (e : Expr)
  | echoS (e : Expr)
  | ifS (cond : Expr) (thn : StmtList)
  | ifElseS (cond : Expr) (thn els : StmtList)
  | whileS (cond : Expr) (body : StmtList)
  | blockS (body : StmtList)
  deriving DecidableEq

/-- An ordered sequence of statements (a block body or the program itself). -/
inductive StmtList where
  | nil
  | cons (head : Stmt) (tail : StmtList)
  deriving DecidableEq

end

/-- Parsing failure: offset, what was expected and what was found. -/
structure ParseError where
  pos : Nat
  expected : String
  found : String
  deriving DecidableEq

/-- Render a token kind for a `ParseError.found` field. -/
def describeTok : TokKind → String
  | .num l => "number " ++ l
  | .ident n => "identifier " ++ n
  | .str _ => "string literal"
  | .kw w => "keyword " ++ w
  | .op o => "operator " ++ o
  | .punct c => "symbol " ++ ⟨[c]⟩
  | .eof => "end of input"

/-- Offset of the next token, or `0` on an empty token list. -/
def peekPos : List Token → Nat
  | [] => 0
  | t :: _ => t.pos

/-- Consume one expected punctuation token or fail. -/
def expectPunct (c : Char) (what : String) : List Token → Except ParseError (List Token)
  | t :: rest =>
    if t.kind = .punct c then .ok rest else .error ⟨t.pos, what, describeTok t.kind⟩
  | [] => .error ⟨0, what, "end of input"⟩

/-! ### Parser

Modelled from the spec: recursive-descent parsing with precedence climbing,
comparison below additive below multiplicative below primary, all binary
operators left-associative; the transpiler sources are not in the repository.
One fuel unit is spent per call; `parseProgram` supplies ample fuel. -/

mutual

/-- Parse a primary expression: number, string, variable or parenthesized
expression. -/
def parsePrimary : Nat → List Token → Except ParseError (Expr × List Token)
  | 0, tks => .error ⟨peekPos tks, "expression", "fuel exhausted"⟩
  | fuel + 1, tks =>
    match tks with
    | [] => .error ⟨0, "expression", "end of input"⟩
    | t :: rest =>
      match t.kind with
      | .num lit => .ok (.numLit lit, rest)
      | .str v => .ok (.strLit v, rest)
      | .ident x => .ok (.var x, rest)
      | .punct c =>
        if c = '(' then do
          let (e, r1) ← parseCmp fuel rest
          let r2 ← expectPunct ')' "closing parenthesis" r1
          .ok (e, r2)
        else .error ⟨t.pos, "expression", describeTok t.kind⟩
      | _ => .error ⟨t.pos, "expression", describeTok t.kind⟩

/-- Left-associative chain of `*` and `/` continuations. -/
def parseMulRest : Nat → Expr → List Token → Except ParseError (Expr × List Token)
  | 0, _, tks => .error ⟨peekPos tks, "expression", "fuel exhausted"⟩
  | fuel + 1, l, tks =>
    match tks with
    | t :: rest =>
      match t.kind with
      | .op o =>
        if o = "*" then do
          let (r, r1) ← parsePrimary fuel rest
          parseMulRest fuel (.bin .mul l r) r1
        else if o = "/" then do
          let (r, r1) ← parsePrimary fuel rest
          parseMulRest fuel (.bin .div l r) r1
        else .ok (l, tks)
      | _ => .ok (l, tks)
    | [] => .ok (l, tks)

/-- Parse a multiplicative expression. -/
def parseMul : Nat → List Token → Except ParseError (Expr × List Token)
  | 0, tks => .error ⟨peekPos tks, "expression", "fuel exhausted"⟩
  | fuel + 1, tks => do
    let (l, r1) ← parsePrimary fuel tks
    parseMulRest fuel l r1

/-- Left-associative chain of `+` and `-` continuations. -/
def parseAddRest : Nat → Expr → List Token → Except ParseError (Expr × List Token)
  | 0, _, tks => .error ⟨peekPos tks, "expression", "fuel exhausted"⟩
  | fuel + 1, l, tks =>
    match tks with
    | t :: rest =>
      match t.kind with
      | .op o =>
        if o = "+" then do
          let (r, r1) ← parseMul fuel rest
          parseAddRest fuel (.bin .add l r) r1
        else if o = "-" then do
          let (r, r1) ← parseMul fuel rest
          parseAddRest fuel (.bin .sub l r) r1
        else .ok (l, tks)
      | _ => .ok (l, tks)
    | [] => .ok (l, tks)

/-- Parse an additive expression. -/
def parseAdd : Nat → List Token → Except ParseError (Expr × List Token)
  | 0, tks => .error ⟨peekPos tks, "expression", "fuel exhausted"⟩
  | fuel + 1, tks => do
    let (l, r1) ← parseMul fuel tks
    parseAddRest fuel l r1

/-- Left-associative chain of comparison continuations. -/
def parseCmpRest : Nat → Expr → List Token → Except ParseError (Expr × List Token)
  | 0, _, tks => .error ⟨peekPos tks, "expression", "fuel exhausted"⟩
  | fuel + 1, l, tks =>
    match tks with
    | t :: rest =>
      match t.kind with
      | .op o =>
        if o = "<" then do
          let (r, r1) ← parseAdd fuel rest
          parseCmpRest fuel (.bin .lt l r) r1
        else if o = ">" then do
          let (r, r1) ← parseAdd fuel rest
          parseCmpRest fuel (.bin .gt l r) r1
        else if o = "<=" then do
          let (r, r1) ← parseAdd fuel rest
          parseCmpRest fuel (.bin .le l r) r1
        else if o = ">=" then do
          let (r, r1) ← parseAdd fuel rest
          parseCmpRest fuel (.bin .ge l r) r1
        else if o = "==" then do
          let (r, r1) ← parseAdd fuel rest
          parseCmpRest fuel (.bin .eq l r) r1
        else if o = "!=" then do
          let (r, r1) ← parseAdd fuel rest
          parseCmpRest fuel (.bin .ne l r) r1
        else .ok (l, tks)
      | _ => .ok (l, tks)
    | [] => .ok (l, tks)

/-- Parse a full expression (comparison level, the lowest precedence). -/
def parseCmp : Nat → List Token → Except ParseError (Expr × List Token)
  | 0, tks => .error ⟨peekPos tks, "expression", "fuel exhausted"⟩
  | fuel + 1, tks => do
    let (l, r1) ← parseAdd fuel tks
    parseCmpRest fuel l r1

end

mutual

/-- Parse a single statement. -/
def parseStmt : Nat → List Token → Except ParseError (Stmt × List Token)
  | 0, tks => .error ⟨peekPos tks, "statement", "fuel exhausted"⟩
  | fuel + 1, tks =>
    match tks with
    | [] => .error ⟨0, "statement", "end of input"⟩
    | t :: rest =>
      match t.kind with
      | .ident x =>
        match rest with
        | t2 :: r2 =>
          if t2.kind = .op "=" then do
            let (e, r3) ← parseCmp fuel r2
            let r4 ← expectPunct ';' "semicolon" r3
            .ok (.assign x e, r4)
          else .error ⟨t2.pos, "assignment operator", describeTok t2.kind⟩
        | [] => .error ⟨0, "assignment operator", "end of input"⟩
      | .kw w =>
        if w = "echo" then do
          let (e, r1) ← parseCmp fuel rest
          let r2 ← expectPunct ';' "semicolon" r1
          .ok (.echoS e, r2)
        else if w = "if" then do
          let r1 ← expectPunct '(' "opening parenthesis" rest
          let (c, r2) ← parseCmp fuel r1
          let r3 ← expectPunct ')' "closing parenthesis" r2
          let r4 ← expectPunct chLBrace "opening brace" r3
          let (thn, r5) ← parseStmtList fuel r4
          let r6 ← expectPunct chRBrace "closing brace" r5
          match r6 with
          | t2 :: r7 =>
            if t2.kind = .kw "else" then do
              let r8 ← expectPunct chLBrace "opening brace" r7
              let (els, r9) ← parseStmtList fuel r8
              let r10 ← expectPunct chRBrace "closing brace" r9
              .ok (.ifElseS c thn els, r10)
            else .ok (.ifS c thn, r6)
          | [] => .ok (.ifS c thn, r6)
        else if w = "while" then do
          let r1 ← expectPunct '(' "opening parenthesis" rest
          let (c, r2) ← parseCmp fuel r1
          let r3 ← expectPunct ')' "closing parenthesis" r2
          let r4 ← expectPunct chLBrace "opening brace" r3
          let (body, r5) ← parseStmtList fuel r4
          let r6 ← expectPunct chRBrace "closing brace" r5
          .ok (.whileS c body, r6)
        else .error ⟨t.pos, "statement", describeTok t.kind⟩
      | .punct c =>
        if c = chLBrace then do
          let (body, r1) ← parseStmtList fuel rest
          let r2 ← expectPunct chRBrace "closing brace" r1
          .ok (.blockS body, r2)
        else .error ⟨t.pos, "statement", describeTok t.kind⟩
      | _ => .error ⟨t.pos, "statement", describeTok t.kind⟩

/-- Parse a statement sequence, stopping before a closing brace or the end of
input (which the caller handles). -/
def parseStmtList : Nat → List Token → Except ParseError (StmtList × List Token)
  | 0, tks => .error ⟨peekPos tks, "statement", "fuel exhausted"⟩
  | fuel + 1, tks =>
    match tks with
    | [] => .ok (.nil, tks)
    | t :: _ =>
      if t.kind = .punct chRBrace ∨ t.kind = .eof then .ok (.nil, tks)
      else do
        let (s, r1) ← parseStmt fuel tks
        let (ss, r2) ← parseStmtList fuel r1
        .ok (.cons s ss, r2)

end

/-- Modelled from the spec: the parser stage of the transpiler, absent from the
repository sources. Builds the program AST from the token sequence or fails
with a `ParseError`; parsing stops at the first error. -/
def parseProgram (tks : List Token) : Except ParseError StmtList := do
  let (ss, rest) ← parseStmtList (10 * tks.length + 10) tks
  match rest with
  | t :: _ =>
    match t.kind with
    | .eof => .ok ss
    | _ => .error ⟨t.pos, "statement", describeTok t.kind⟩
  | [] => .ok ss

/-! ### Code generator

Modelled from the spec: `generate` walks the AST and emits JavaScript text,
one statement per line, with every binary expression explicitly parenthesized
and with declaration tracking (first write to a name emits `let name = ...;`,
later writes emit `name = ...;`), the declared-name set threaded through the
block-traversal calls; the transpiler sources are not in the repository. -/

/-- Re-escape one character for a JavaScript double-quoted string literal. -/
def escapeJsChar (c : Char) : List Char :=
  if c = chQuote then [chBS, chQuote]
  else if c = chBS then [chBS, chBS]
  else if c = chNL then [chBS, 'n']
  else [c]

/-- Re-escape a decoded string value for JavaScript quoting rules. -/
def escapeJs (s : String) : String :=
  ⟨s.toList.foldr (fun c acc => escapeJsChar c ++ acc) []⟩

/-- Emit a JavaScript expression as characters: literals and variables as
their text, every binary operation wrapped in explicit parentheses. -/
def genExprChars : Expr → List Char
  | .numLit lit => lit.toList
  | .strLit v => chQuote :: (escapeJs v).toList ++ [chQuote]
  | .var x => x.toList
  | .bin op l r =>
    '(' :: genExprChars l ++ ' ' :: (BinOp.text op).toList ++ ' ' :: genExprChars r ++ [')']

/-- Emit a JavaScript expression as text. -/
def genExpr (e : Expr) : String := ⟨genExprChars e⟩

mutual

/-- Emit the lines of one statement, threading the set of already-declared
variable names; returns the lines and the updated set. -/
def genStmt (decls : List String) : Stmt → List String × List String
  | .assign x e =>
    if x ∈ decls then ([x ++ " = " ++ genExpr e ++ ";"], decls)
    else (["let " ++ x ++ " = " ++ genExpr e ++ ";"], x :: decls)
  | .echoS e => (["console.log(" ++ genExpr e ++ ");"], decls)
  | .ifS c thn =>
    let p := genStmts decls thn
    (("if (" ++ genExpr c ++ ") \x7b") :: p.1 ++ ["\x7d"], p.2)
  | .ifElseS c thn els =>
    let p := genStmts decls thn
    let q := genStmts p.2 els
    (("if (" ++ genExpr c ++ ") \x7b") :: p.1 ++ ["\x7d else \x7b"] ++ q.1 ++ ["\x7d"], q.2)
  | .whileS c body =>
    let p := genStmts decls body
    (("while (" ++ genExpr c ++ ") \x7b") :: p.1 ++ ["\x7d"], p.2)
  | .blockS body =>
    let p := genStmts decls body
    ("\x7b" :: p.1 ++ ["\x7d"], p.2)

/-- Emit the lines of a statement sequence, threading the declared-name set. -/
def genStmts (decls : List String) : StmtList → List String × List String
  | .nil => ([], decls)
  | .cons s rest =>
    let p := genStmt decls s
    let q := genStmts p.2 rest
    (p.1 ++ q.1, q.2)

end

/-- The output lines of a whole program (declaration tracking starts empty). -/
def jsLines (prog : StmtList) : List String := (genStmts [] prog).1

/-- Modelled from the spec: the code generation stage of the transpiler,
absent from the repository sources. Total over well-formed ASTs. -/
def generate (prog : StmtList) : String := String.intercalate "\n" (jsLines prog)

/-! ### Transpile facade

Modelled from the spec: the single entry point sequencing
lexing, parsing and generation, wrapping the first failing stage into a
uniform error shape; the transpiler sources are not in the repository. -/

/-- The uniform error shape surfaced to the caller: stage name, source
position and message. -/
structure TranspileError where
  stage : String
  pos : Nat
  message : String
  deriving DecidableEq

/-- Wrap a lexer error, keeping its position and unexpected character. -/
def wrapLex (e : LexError) : TranspileError :=
  ⟨"lex", e.pos, "unexpected character " ++ ⟨[e.unexpectedChar]⟩⟩

/-- Wrap a parser error, keeping its position, expectation and finding. -/
def wrapParse (e : ParseError) : TranspileError :=
  ⟨"parse", e.pos, "expected " ++ e.expected ++ ", found " ++ e.found⟩

/-- Modelled from the spec: the `transpile` facade exported by the WASM
module, absent from the repository sources. Returns the generated JavaScript
text or the wrapped error of the first failing stage. -/
def transpile (src : String) : Except TranspileError String :=
  match tokenize src with
  | .error e => .error (wrapLex e)
  | .ok tks =>
    match parseProgram tks with
    | .error e => .error (wrapParse e)
    | .ok prog => .ok (generate prog)

/-! ### The UI component, embedded from `src/app/page.tsx`

The `Home` component state and the handlers the claims concern. The WASM
module reference is modelled as an optional function from source text to a
result, an exception thrown by `ccall` as the `Except.error` case. -/

/-- The React state of the `Home` component in `src/app/page.tsx` (the toast
holds the currently shown message, empty when none). -/
structure UIState where
  loading : Bool
  converting : Bool
  phpCode : String
  jsCode : String
  toast : String
  showModal : Bool
  deriving DecidableEq

/-- The argument record of an Emscripten `ccall` invocation. -/
structure CcallRequest where
  ident : String
  returnType : String
  argTypes : List String
  args : List String
  deriving DecidableEq

/-- The `ccall` request issued by `runTranspile` in `src/app/page.tsx`:
`ccall("transpile", "string", ["string"], [phpCode])`. -/
def transpileCall (phpCode : String) : CcallRequest :=
  ⟨"transpile", "string", ["string"], [phpCode]⟩

/-- The body of the `setTimeout` callback in `runTranspile`
(`src/app/page.tsx`, lines 84-99): call the module, store the result in
`jsCode`; on a thrown error store the fixed string; always clear
`converting`. -/
def transpileCallback (m : String → Except TranspileError String) (s : UIState) : UIState :=
  match m s.phpCode with
  | .ok r => { s with jsCode := r, converting := false }
  | .error _ => { s with jsCode := "// transpile error", converting := false }

/-- `runTranspile` from `src/app/page.tsx` (lines 76-100), with its scheduled
callback run to completion: if the module reference is still null the handler
alerts and returns early; otherwise it sets `converting` and the callback
stores the call result. -/
def runTranspile (module : Option (String → Except TranspileError String))
    (s : UIState) : UIState :=
  match module with
  | none => s
  | some m => transpileCallback m { s with converting := true }

/-- `clearAll` from `src/app/page.tsx` (lines 107-111): empties both editors
and shows a toast. -/
def clearAll (s : UIState) : UIState :=
  { s with phpCode := "", jsCode := "", toast := "Cleared all code!" }

/-- The `disabled={!jsCode}` condition of the copy button in
`src/app/page.tsx` (line 154): a JavaScript string is falsy exactly when it is
empty. -/
def copyDisabled (s : UIState) : Bool := s.jsCode == ""

/-! ### A JavaScript reader for the emitted arithmetic expressions

To state precedence preservation, the generated text is read back with
standard JavaScript operator precedence (`*`, `/` above `+`, `-` above
comparisons, all left-associative) and evaluated over the rationals. Fuel is
spent one unit per call. -/

/-- Skip space characters (the only whitespace the generator emits inside an
expression). -/
def skipSpaces : List Char → List Char
  | [] => []
  | c :: cs => if c = ' ' then skipSpaces cs else c :: cs

mutual

/-- Read a JavaScript primary expression: parenthesized expression, number
literal or identifier. -/
def jsPrim : Nat → List Char → Option (Expr × List Char)
  | 0, _ => none
  | fuel + 1, cs =>
    match skipSpaces cs with
    | [] => none
    | c :: cs1 =>
      if c = '(' then
        match jsCmp fuel cs1 with
        | some (e, cs2) =>
          match skipSpaces cs2 with
          | ')' :: cs3 => some (e, cs3)
          | _ => none
        | none => none
      else if isDigitCh c then
        some (.numLit ⟨(c :: cs1).takeWhile isDigitOrDot⟩, (c :: cs1).dropWhile isDigitOrDot)
      else if isIdentStart c then
        some (.var ⟨(c :: cs1).takeWhile isIdentChar⟩, (c :: cs1).dropWhile isIdentChar)
      else none

/-- Left-associative continuation at the multiplicative level. -/
def jsMulRest : Nat → Expr → List Char → Option (Expr × List Char)
  | 0, _, _ => none
  | fuel + 1, l, cs =>
    match skipSpaces cs with
    | [] => some (l, cs)
    | c :: cs1 =>
      if c = '*' then
        match jsPrim fuel cs1 with
        | some (r, cs2) => jsMulRest fuel (.bin .mul l r) cs2
        | none => none
      else if c = '/' then
        match jsPrim fuel cs1 with
        | some (r, cs2) => jsMulRest fuel (.bin .div l r) cs2
        | none => none
      else some (l, cs)

/-- Read a multiplicative expression. -/
def jsMul : Nat → List Char → Option (Expr × List Char)
  | 0, _ => none
  | fuel + 1, cs =>
    match jsPrim fuel cs with
    | some (l, cs1) => jsMulRest fuel l cs1
    | none => none

/-- Left-associative continuation at the additive level. -/
def jsAddRest : Nat → Expr → List Char → Option (Expr × List Char)
  | 0, _, _ => none
  | fuel + 1, l, cs =>
    match skipSpaces cs with
    | [] => some (l, cs)
    | c :: cs1 =>
      if c = '+' then
        match jsMul fuel cs1 with
        | some (r, cs2) => jsAddRest fuel (.bin .add l r) cs2
        | none => none
      else if c = '-' then
        match jsMul fuel cs1 with
        | some (r, cs2) => jsAddRest fuel (.bin .sub l r) cs2
        | none => none
      else some (l, cs)

/-- Read an additive expression. -/
def jsAdd : Nat → List Char → Option (Expr × List Char)
  | 0, _ => none
  | fuel + 1, cs =>
    match jsMul fuel cs with
    | some (l, cs1) => jsAddRest fuel l cs1
    | none => none

/-- Left-associative continuation at the comparison level (multi-character
operators matched greedily). -/
def jsCmpRest : Nat → Expr → List Char → Option (Expr × List Char)
  | 0, _, _ => none
  | fuel + 1, l, cs =>
    match skipSpaces cs with
    | [] => some (l, cs)
    | c :: cs1 =>
      if c = '<' then
        match cs1 with
        | '=' :: cs2 =>
          match jsAdd fuel cs2 with
          | some (r, cs3) => jsCmpRest fuel (.bin .le l r) cs3
          | none => none
        | _ =>
          match jsAdd fuel cs1 with
          | some (r, cs3) => jsCmpRest fuel (.bin .lt l r) cs3
          | none => none
      else if c = '>' then
        match cs1 with
        | '=' :: cs2 =>
          match jsAdd fuel cs2 with
          | some (r, cs3) => jsCmpRest fuel (.bin .ge l r) cs3
          | none => none
        | _ =>
          match jsAdd fuel cs1 with
          | some (r, cs3) => jsCmpRest fuel (.bin .gt l r) cs3
          | none => none
      else if c = '=' then
        match cs1 with
        | '=' :: cs2 =>
          match jsAdd fuel cs2 with
          | some (r, cs3) => jsCmpRest fuel (.bin .eq l r) cs3
          | none => none
        | _ => some (l, cs)
      else if c = '!' then
        match cs1 with
        | '=' :: cs2 =>
          match jsAdd fuel cs2 with
          | some (r, cs3) => jsCmpRest fuel (.bin .ne l r) cs3
          | none => none
        | _ => some (l, cs)
      else some (l, cs)

/-- Read a full expression (comparison level, the lowest precedence in this
operator subset). -/
def jsCmp : Nat → List Char → Option (Expr × List Char)
  | 0, _ => none
  | fuel + 1, cs =>
    match jsAdd fuel cs with
    | some (l, cs1) => jsCmpRest fuel l cs1
    | none => none

end

/-- Read a complete JavaScript arithmetic expression, requiring all input to
be consumed. -/
def jsParseArith (s : String) : Option Expr :=
  match jsCmp (8 * s.toList.length + 8) s.toList with
  | some (e, rest) => if skipSpaces rest = [] then some e else none
  | none => none

/-! ### Evaluation over the rationals -/

/-- Value of a digit run in base ten. -/
def digitsVal (cs : List Char) : Nat := cs.foldl (fun a c => 10 * a + (c.toNat - 48)) 0

/-- Numeric value of a decimal integer or float literal. -/
def numValue (lit : String) : ℚ :=
  match lit.toList.dropWhile isDigitCh with
  | '.' :: fr =>
    (digitsVal (lit.toList.takeWhile isDigitCh) : ℚ) +
      (digitsVal (fr.takeWhile isDigitCh) : ℚ) / ((10 : ℚ) ^ (fr.takeWhile isDigitCh).length)
  | _ => (digitsVal (lit.toList.takeWhile isDigitCh) : ℚ)

/-- A numeric substitution for the free variables. -/
def Env : Type := String → ℚ

/-- Standard arithmetic evaluation of an expression under a substitution
(rational division; defined only on the arithmetic fragment). -/
def evalArith (env : Env) : Expr → Option ℚ
  | .numLit lit => some (numValue lit)
  | .strLit _ => none
  | .var x => some (env x)
  | .bin op l r =>
    match evalArith env l, evalArith env r with
    | some a, some b =>
      match op with
      | .add => some (a + b)
      | .sub => some (a - b)
      | .mul => some (a * b)
      | .div => some (a / b)
      | _ => none
    | _, _ => none

/-- Evaluate a JavaScript expression text under a numeric substitution:
read it with JavaScript precedence, then evaluate. -/
def jsEvalString (s : String) (env : Env) : Option ℚ :=
  match jsParseArith s with
  | some e => evalArith env e
  | none => none

/-! ### Well-formedness of arithmetic expressions -/

/-- A well-formed number literal: nonempty, starts with a digit, made of
digits and at most a decimal point (as the lexer produces). -/
def litWf (lit : String) : Bool :=
  match lit.toList with
  | [] => false
  | c :: _ => isDigitCh c && lit.toList.all isDigitOrDot

/-- A well-formed variable name: nonempty, starts with a letter or
underscore, made of identifier characters (as the lexer produces). -/
def identWf (x : String) : Bool :=
  match x.toList with
  | [] => false
  | c :: _ => isIdentStart c && x.toList.all isIdentChar

/-- The four arithmetic operators. -/
def arithOp : BinOp → Bool
  | .add => true
  | .sub => true
  | .mul => true
  | .div => true
  | _ => false

/-- An arithmetic expression built from `+ - * /`, parentheses, number
literals and variables, all spellings well formed. -/
def ArithWf : Expr → Bool
  | .numLit lit => litWf lit
  | .strLit _ => false
  | .var x => identWf x
  | .bin op l r => arithOp op && ArithWf l && ArithWf r

/-- Node count of an expression, used to budget reader fuel. -/
def esize : Expr → Nat
  | .bin _ l r => esize l + esize r + 1
  | _ => 1

/-! ### Predicates on programs and on output lines -/

mutual

/-- Does a statement (or one nested inside it) assign to `x`? -/
def stmtAssigns (x : String) : Stmt → Bool
  | .assign y _ => x = y
  | .echoS _ => false
  | .ifS _ thn => stmtsAssigns x thn
  | .ifElseS _ thn els => stmtsAssigns x thn || stmtsAssigns x els
  | .whileS _ body => stmtsAssigns x body
  | .blockS body => stmtsAssigns x body

/-- Does any statement of the sequence assign to `x`? -/
def stmtsAssigns (x : String) : StmtList → Bool
  | .nil => false
  | .cons s rest => stmtAssigns x s || stmtsAssigns x rest

end

mutual

/-- Number of assignments to `x` inside a statement, nested ones included. -/
def stmtAssignCount (x : String) : Stmt → Nat
  | .assign y _ => if x = y then 1 else 0
  | .echoS _ => 0
  | .ifS _ thn => stmtsAssignCount x thn
  | .ifElseS _ thn els => stmtsAssignCount x thn + stmtsAssignCount x els
  | .whileS _ body => stmtsAssignCount x body
  | .blockS body => stmtsAssignCount x body

/-- Number of assignments to `x` in a statement sequence. -/
def stmtsAssignCount (x : String) : StmtList → Nat
  | .nil => 0
  | .cons s rest => stmtAssignCount x s + stmtsAssignCount x rest

end

mutual

/-- Every name assigned inside the statement is a well-formed identifier (as
the parser guarantees for programs built from source text). -/
def stmtNamesWf : Stmt → Bool
  | .assign y _ => identWf y
  | .echoS _ => true
  | .ifS _ thn => stmtsNamesWf thn
  | .ifElseS _ thn els => stmtsNamesWf thn && stmtsNamesWf els
  | .whileS _ body => stmtsNamesWf body
  | .blockS body => stmtsNamesWf body

/-- Every name assigned in the sequence is a well-formed identifier. -/
def stmtsNamesWf : StmtList → Bool
  | .nil => true
  | .cons s rest => stmtNamesWf s && stmtsNamesWf rest

end

/-- Character-list prefix test between strings. -/
def strHasPrefix (p s : String) : Bool := p.toList.isPrefixOf s.toList

/-- Is this output line a `let` declaration of `x`, i.e. does it start with
`let x =`? -/
def isLetLine (x line : String) : Bool := strHasPrefix ("let " ++ x ++ " =") line

/-- Is this output line an assignment to `x` (a `let` declaration or a plain
assignment starting with `x =`)? -/
def isAssignLine (x line : String) : Bool :=
  isLetLine x line || strHasPrefix (x ++ " =") line

/-- The maximal identifier runs of a character list, in order. -/
def identRunsF : Nat → List Char → List (List Char)
  | 0, _ => []
  | _ + 1, [] => []
  | fuel + 1, c :: cs =>
    if isIdentChar c then
      (c :: cs.takeWhile isIdentChar) :: identRunsF fuel (cs.dropWhile isIdentChar)
    else identRunsF fuel cs

/-- Does the line mention `x` as a standalone identifier (one of its maximal
identifier runs)? -/
def usesIdent (x line : String) : Bool :=
  (identRunsF (line.toList.length + 1) line.toList).contains x.toList

/-- Separator condition after an emitted atom: the following character (if
any) extends neither an identifier nor a number literal. -/
def sepOk : List Char → Bool
  | [] => true
  | c :: _ => !isIdentChar c && !isDigitOrDot c

/-- The head of the list, if any, fails the predicate (a maximal run of `p`
characters cannot continue into the list). -/
def headStop (p : Char → Bool) (cs : List Char) : Prop :=
  ∀ c, cs.head? = some c → p c = false

/-- Invariant of the generator run for a fixed name `x`: emitting a chunk of
statements from declared-set `decls` produces lines `ls` and declared-set
`decls2` such that the declared set only grows, `x` ends up declared exactly
when it was declared or the chunk assigns it, an already-declared `x` never
gets another `let` line, a chunk not assigning an undeclared `x` emits no
assignment line for it at all, and a chunk assigning an undeclared `x` emits
exactly one `let x` line, preceded by no assignment line for `x` and followed
by no further `let x` line. -/
def GenInv (x : String) (decls : List String) (assigns : Bool)
    (ls : List String) (decls2 : List String) : Prop :=
  (∀ z ∈ decls, z ∈ decls2) ∧
  ((x ∈ decls2) ↔ (x ∈ decls ∨ assigns = true)) ∧
  (x ∈ decls → ∀ l ∈ ls, isLetLine x l = false) ∧
  (x ∉ decls → assigns = false → ∀ l ∈ ls, isAssignLine x l = false) ∧
  (x ∉ decls → assigns = true →
    ∃ pre e post, ls = pre ++ ("let " ++ x ++ " = " ++ genExpr e ++ ";") :: post ∧
      (∀ l ∈ pre, isAssignLine x l = false) ∧
      (∀ l ∈ post, isLetLine x l = false))

/-- The lexing-plus-parsing front of the pipeline, exposed for statements
about the produced AST. -/
def parsedProgram (s : String) : Option StmtList :=
  match tokenize s with
  | .ok tks =>
    match parseProgram tks with
    | .ok p => some p
    | .error _ => none
  | .error _ => none

/-! ### Concrete fixtures used by the claims -/

/-- The precedence scenario input from the design document. -/
def c1Input : String := "$a = 1; $b = 2; $c = $a + $b * 10;"

/-- The JavaScript text `transpile` produces for `c1Input`. -/
def c1Output : String := "let a = 1;\nlet b = 2;\nlet c = (a + (b * 10));"

/-- The substitution `a = 1`, `b = 2` of the precedence scenario. -/
def envAB : Env := fun x => if x = "a" then 1 else if x = "b" then 2 else 0

/-- A program that reads `x` before assigning it twice. -/
def cexInput : String := "echo $x; $x = 1; $x = 2;"

/-- The AST the parser produces for `cexInput`. -/
def cexProg : StmtList :=
  .cons (.echoS (.var "x"))
    (.cons (.assign "x" (.numLit "1")) (.cons (.assign "x" (.numLit "2")) .nil))

/-- The expression the parser produces for `$a + $b * 10` (multiplication
binds tighter). -/
def c1Expr : Expr := .bin .add (.var "a") (.bin .mul (.var "b") (.numLit "10"))

/-- The AST the parser produces for `c1Input`. -/
def c1Prog : StmtList :=
  .cons (.assign "a" (.numLit "1"))
    (.cons (.assign "b" (.numLit "2")) (.cons (.assign "c" c1Expr) .nil))

/-- The initial component state from `src/app/page.tsx`: module still loading,
sample PHP snippet in the editor, empty output. -/
def initialState : UIState where
  loading := true
  converting := false
  phpCode := "$a = 10;\n$b = 20;\nif ($a < $b) \x7b\n  echo \"B is greater\";\n\x7d else \x7b\n  echo \"A is greater\";\n\x7d\n"
  jsCode := ""
  toast := ""
  showModal := false

/-- A module stub whose call always throws, used to exercise the error path
of the UI callback. -/
def throwingModule : String → Except TranspileError String :=
  fun _ => .error ⟨"lex", 0, "boom"⟩

/-! ### Basic lemmas on characters, runs and whitespace -/

theorem mk_toList (s : String) : String.mk s.toList = s := rfl

theorem skipSpaces_cons_space (cs : List Char) : skipSpaces (' ' :: cs) = skipSpaces cs := by
  simp [skipSpaces]

theorem skipSpaces_cons_ne {c : Char} (cs : List Char) (h : c ≠ ' ') :
    skipSpaces (c :: cs) = c :: cs := by
  simp [skipSpaces, h]

theorem takeWhile_run {p : Char → Bool} {x rest : List Char}
    (hx : ∀ c ∈ x, p c = true) (hr : headStop p rest) :
    (x ++ rest).takeWhile p = x := by
  rw [List.takeWhile_append_of_pos hx]
  cases rest with
  | nil => simp
  | cons c cs => simp [List.takeWhile_cons, hr c rfl]

theorem dropWhile_run {p : Char → Bool} {x rest : List Char}
    (hx : ∀ c ∈ x, p c = true) (hr : headStop p rest) :
    (x ++ rest).dropWhile p = rest := by
  rw [List.dropWhile_append_of_pos hx]
  cases rest with
  | nil => simp
  | cons c cs => simp [List.dropWhile_cons, hr c rfl]

theorem identChar_of_start {c : Char} (h : isIdentStart c = true) : isIdentChar c = true := by
  simp [isIdentStart] at h
  rcases h with h | h <;> simp [isIdentChar, h]

theorem sepOk_headStop_ident {rest : List Char} (h : sepOk rest = true) :
    headStop isIdentChar rest := by
  intro c hc
  cases rest with
  | nil => simp at hc
  | cons d ds =>
    simp at hc
    subst hc
    simp [sepOk] at h
    exact h.1

theorem sepOk_headStop_num {rest : List Char} (h : sepOk rest = true) :
    headStop isDigitOrDot rest := by
  intro c hc
  cases rest with
  | nil => simp at hc
  | cons d ds =>
    simp at hc
    subst hc
    simp [sepOk] at h
    exact h.2

/-! ### Lexer step lemmas -/

theorem lexAux_dollar (fuel : Nat) (d : Char) (ds rest : List Char) (pos : Nat)
    (hd : isIdentStart d = true) (hds : ∀ c ∈ ds, isIdentChar c = true)
    (hr : headStop isIdentChar rest) :
    lexAux (fuel + 1) ('$' :: (d :: ds) ++ rest) pos =
      (Token.mk (.ident ⟨d :: ds⟩) pos :: ·) <$>
        lexAux fuel rest (pos + 1 + (d :: ds).length) := by
  have hall : ∀ c ∈ d :: ds, isIdentChar c = true := by
    intro c hc
    rcases List.mem_cons.mp hc with rfl | hc
    · exact identChar_of_start hd
    · exact hds c hc
  have htake : ((d :: ds) ++ rest).takeWhile isIdentChar = d :: ds := takeWhile_run hall hr
  have hdrop : ((d :: ds) ++ rest).dropWhile isIdentChar = rest := dropWhile_run hall hr
  have h1 : isSpaceChar '$' = false := by decide
  rw [List.cons_append] at htake hdrop
  simp [lexAux, h1, htake, hdrop, hd]

theorem lexAux_le (fuel : Nat) (rest : List Char) (pos : Nat) :
    lexAux (fuel + 1) ('<' :: '=' :: rest) pos =
      (Token.mk (.op "<=") pos :: ·) <$> lexAux fuel rest (pos + 2) := by
  have h1 : isSpaceChar '<' = false := by decide
  have h2 : isDigitCh '<' = false := by decide
  have h3 : isIdentStart '<' = false := by decide
  have h4 : ¬('<' = chQuote ∨ '<' = chSQuote) := by decide
  simp [lexAux, h1, h2, h3, h4]

theorem lexAux_eqeq (fuel : Nat) (rest : List Char) (pos : Nat) :
    lexAux (fuel + 1) ('=' :: '=' :: rest) pos =
      (Token.mk (.op "==") pos :: ·) <$> lexAux fuel rest (pos + 2) := by
  have h1 : isSpaceChar '=' = false := by decide
  have h2 : isDigitCh '=' = false := by decide
  have h3 : isIdentStart '=' = false := by decide
  have h4 : ¬('=' = chQuote ∨ '=' = chSQuote) := by decide
  simp [lexAux, h1, h2, h3, h4]

/-! ### JavaScript reader lemmas: the emitted parenthesized text reads back
to the same AST under JavaScript precedence -/


theorem jsPrim_num (g : Nat) (lit : String) (rest : List Char)
    (hwf : litWf lit = true) (hsep : sepOk rest = true) :
    jsPrim (g + 1) (lit.toList ++ rest) = some (.numLit lit, rest) := by
  obtain ⟨data⟩ := lit
  cases data with
  | nil => simp [litWf, String.toList] at hwf
  | cons c cs =>
    simp [litWf, String.toList] at hwf
    obtain ⟨hc, hall⟩ := hwf
    have hcs : ∀ d ∈ c :: cs, isDigitOrDot d = true := by
      intro d hd
      rcases List.mem_cons.mp hd with rfl | hd2
      · simp [isDigitOrDot, hc]
      · exact hall.2 d hd2
    have hcsp : c ≠ ' ' := by
      intro h
      rw [h] at hc
      exact absurd hc (by decide)
    have hcp : c ≠ '(' := by
      intro h
      rw [h] at hc
      exact absurd hc (by decide)
    have htake : ((c :: cs) ++ rest).takeWhile isDigitOrDot = c :: cs :=
      takeWhile_run hcs (sepOk_headStop_num hsep)
    have hdrop : ((c :: cs) ++ rest).dropWhile isDigitOrDot = rest :=
      dropWhile_run hcs (sepOk_headStop_num hsep)
    rw [List.cons_append] at htake hdrop
    show jsPrim (g + 1) ((c :: cs) ++ rest) = _
    rw [List.cons_append]
    simp only [jsPrim]
    rw [skipSpaces_cons_ne _ hcsp]
    simp [hcp, hc, htake, hdrop]

theorem identStart_not_digit {c : Char} (hc : isIdentStart c = true) : isDigitCh c = false := by
  rcases (by simpa [isIdentStart] using hc : isAlphaCh c = true ∨ c = '_') with h | h
  · have hh : (65 ≤ c.toNat ∧ c.toNat ≤ 90) ∨ (97 ≤ c.toNat ∧ c.toNat ≤ 122) := by
      simpa [isAlphaCh] using h
    simp [isDigitCh]
    omega
  · rw [h]
    decide

theorem jsPrim_var (g : Nat) (x : String) (rest : List Char)
    (hwf : identWf x = true) (hsep : sepOk rest = true) :
    jsPrim (g + 1) (x.toList ++ rest) = some (.var x, rest) := by
  obtain ⟨data⟩ := x
  cases data with
  | nil => simp [identWf, String.toList] at hwf
  | cons c cs =>
    simp [identWf, String.toList] at hwf
    obtain ⟨hc, hall⟩ := hwf
    have hcs : ∀ d ∈ c :: cs, isIdentChar d = true := by
      intro d hd
      rcases List.mem_cons.mp hd with rfl | hd2
      · exact identChar_of_start hc
      · exact hall.2 d hd2
    have hcsp : c ≠ ' ' := by
      intro h
      rw [h] at hc
      exact absurd hc (by decide)
    have hcp : c ≠ '(' := by
      intro h
      rw [h] at hc
      exact absurd hc (by decide)
    have hcd : isDigitCh c = false := identStart_not_digit hc
    have htake : ((c :: cs) ++ rest).takeWhile isIdentChar = c :: cs :=
      takeWhile_run hcs (sepOk_headStop_ident hsep)
    have hdrop : ((c :: cs) ++ rest).dropWhile isIdentChar = rest :=
      dropWhile_run hcs (sepOk_headStop_ident hsep)
    rw [List.cons_append] at htake hdrop
    show jsPrim (g + 1) ((c :: cs) ++ rest) = _
    rw [List.cons_append]
    simp only [jsPrim]
    rw [skipSpaces_cons_ne _ hcsp]
    simp [hcp, hc, hcd, htake, hdrop]

theorem jsMulRest_stop (g : Nat) (l : Expr) (cs : List Char)
    (h : ∀ d tail, skipSpaces cs = d :: tail → d ≠ '*' ∧ d ≠ '/') :
    jsMulRest (g + 1) l cs = some (l, cs) := by
  simp only [jsMulRest]
  cases hss : skipSpaces cs with
  | nil => rfl
  | cons d tail =>
    obtain ⟨h1, h2⟩ := h d tail hss
    simp [h1, h2]

theorem jsAddRest_stop (g : Nat) (l : Expr) (cs : List Char)
    (h : ∀ d tail, skipSpaces cs = d :: tail → d ≠ '+' ∧ d ≠ '-') :
    jsAddRest (g + 1) l cs = some (l, cs) := by
  simp only [jsAddRest]
  cases hss : skipSpaces cs with
  | nil => rfl
  | cons d tail =>
    obtain ⟨h1, h2⟩ := h d tail hss
    simp [h1, h2]

theorem jsCmpRest_stop (g : Nat) (l : Expr) (cs : List Char)
    (h : ∀ d tail, skipSpaces cs = d :: tail → d ≠ '<' ∧ d ≠ '>' ∧ d ≠ '=' ∧ d ≠ '!') :
    jsCmpRest (g + 1) l cs = some (l, cs) := by
  simp only [jsCmpRest]
  cases hss : skipSpaces cs with
  | nil => rfl
  | cons d tail =>
    obtain ⟨h1, h2, h3, h4⟩ := h d tail hss
    simp [h1, h2, h3, h4]

theorem skipSpaces_rparen (z : List Char) : skipSpaces (')' :: z) = ')' :: z := rfl

theorem sepOk_space (z : List Char) : sepOk (' ' :: z) = true := rfl

theorem sepOk_rparen (z : List Char) : sepOk (')' :: z) = true := rfl

theorem esize_pos (e : Expr) : 1 ≤ esize e := by
  cases e <;> simp [esize]

theorem jsPrim_space (g : Nat) (cs : List Char) :
    jsPrim (g + 1) (' ' :: cs) = jsPrim (g + 1) cs := by
  simp only [jsPrim, skipSpaces_cons_space]

theorem rparen_stop_mul (z : List Char) :
    ∀ d tail, skipSpaces (')' :: z) = d :: tail → d ≠ '*' ∧ d ≠ '/' := by
  intro d tail hd
  rw [skipSpaces_rparen] at hd
  cases hd
  exact ⟨by decide, by decide⟩

theorem rparen_stop_add (z : List Char) :
    ∀ d tail, skipSpaces (')' :: z) = d :: tail → d ≠ '+' ∧ d ≠ '-' := by
  intro d tail hd
  rw [skipSpaces_rparen] at hd
  cases hd
  exact ⟨by decide, by decide⟩

theorem rparen_stop_cmp (z : List Char) :
    ∀ d tail, skipSpaces (')' :: z) = d :: tail → d ≠ '<' ∧ d ≠ '>' ∧ d ≠ '=' ∧ d ≠ '!' := by
  intro d tail hd
  rw [skipSpaces_rparen] at hd
  cases hd
  exact ⟨by decide, by decide, by decide, by decide⟩

theorem jsBin_muldiv (g6 : Nat) (l r : Expr) (bop : BinOp) (opc : Char) (rest : List Char)
    (hopc : (opc = '*' ∧ bop = .mul) ∨ (opc = '/' ∧ bop = .div))
    (hpl : jsPrim (g6 + 1 + 1)
        (genExprChars l ++ (' ' :: opc :: ' ' :: (genExprChars r ++ ')' :: rest))) =
      some (l, ' ' :: opc :: ' ' :: (genExprChars r ++ ')' :: rest)))
    (hpr : jsPrim (g6 + 1) (genExprChars r ++ ')' :: rest) = some (r, ')' :: rest)) :
    jsPrim (g6 + 1 + 1 + 1 + 1 + 1 + 1)
        ('(' :: (genExprChars l ++ (' ' :: opc :: ' ' :: (genExprChars r ++ ')' :: rest)))) =
      some (.bin bop l r, rest) := by
  have hmr2 : jsMulRest (g6 + 1) (.bin bop l r) (')' :: rest) =
      some (.bin bop l r, ')' :: rest) := jsMulRest_stop g6 _ _ (rparen_stop_mul rest)
  have hsp : jsPrim (g6 + 1) (' ' :: (genExprChars r ++ ')' :: rest)) = some (r, ')' :: rest) := by
    rw [jsPrim_space]
    exact hpr
  have hmr : jsMulRest (g6 + 1 + 1) l
      (' ' :: opc :: ' ' :: (genExprChars r ++ ')' :: rest)) =
      some (.bin bop l r, ')' :: rest) := by
    simp only [jsMulRest]
    rw [skipSpaces_cons_space]
    rcases hopc with ⟨rfl, rfl⟩ | ⟨rfl, rfl⟩ <;>
      rw [skipSpaces_cons_ne _ (by decide)] <;> simp [hsp, hmr2, skipSpaces_rparen]
  have hmul : jsMul (g6 + 1 + 1 + 1)
      (genExprChars l ++ (' ' :: opc :: ' ' :: (genExprChars r ++ ')' :: rest))) =
      some (.bin bop l r, ')' :: rest) := by
    simp only [jsMul]
    rw [hpl]
    exact hmr
  have haddrest : jsAddRest (g6 + 1 + 1) (.bin bop l r) (')' :: rest) =
      some (.bin bop l r, ')' :: rest) := jsAddRest_stop _ _ _ (rparen_stop_add rest)
  have hadd : jsAdd (g6 + 1 + 1 + 1 + 1)
      (genExprChars l ++ (' ' :: opc :: ' ' :: (genExprChars r ++ ')' :: rest))) =
      some (.bin bop l r, ')' :: rest) := by
    simp only [jsAdd]
    rw [hmul]
    exact haddrest
  have hcmprest : jsCmpRest (g6 + 1 + 1 + 1) (.bin bop l r) (')' :: rest) =
      some (.bin bop l r, ')' :: rest) := jsCmpRest_stop _ _ _ (rparen_stop_cmp rest)
  have hcmp : jsCmp (g6 + 1 + 1 + 1 + 1 + 1)
      (genExprChars l ++ (' ' :: opc :: ' ' :: (genExprChars r ++ ')' :: rest))) =
      some (.bin bop l r, ')' :: rest) := by
    simp only [jsCmp]
    rw [hadd]
    exact hcmprest
  simp only [jsPrim]
  rw [skipSpaces_cons_ne _ (by decide)]
  simp [hcmp, skipSpaces_rparen]



theorem jsBin_addsub (g6 : Nat) (l r : Expr) (bop : BinOp) (opc : Char) (rest : List Char)
    (hopc : (opc = '+' ∧ bop = .add) ∨ (opc = '-' ∧ bop = .sub))
    (hpl : jsPrim (g6 + 1 + 1)
        (genExprChars l ++ (' ' :: opc :: ' ' :: (genExprChars r ++ ')' :: rest))) =
      some (l, ' ' :: opc :: ' ' :: (genExprChars r ++ ')' :: rest)))
    (hpr : jsPrim (g6 + 1) (genExprChars r ++ ')' :: rest) = some (r, ')' :: rest)) :
    jsPrim (g6 + 1 + 1 + 1 + 1 + 1 + 1)
        ('(' :: (genExprChars l ++ (' ' :: opc :: ' ' :: (genExprChars r ++ ')' :: rest)))) =
      some (.bin bop l r, rest) := by
  have hsp : jsPrim (g6 + 1) (' ' :: (genExprChars r ++ ')' :: rest)) = some (r, ')' :: rest) := by
    rw [jsPrim_space]
    exact hpr
  have hmrr : jsMulRest (g6 + 1) r (')' :: rest) = some (r, ')' :: rest) :=
    jsMulRest_stop g6 _ _ (rparen_stop_mul rest)
  have hmulr : jsMul (g6 + 1 + 1) (' ' :: (genExprChars r ++ ')' :: rest)) =
      some (r, ')' :: rest) := by
    simp only [jsMul]
    rw [hsp]
    exact hmrr
  have hopcne : opc ≠ ' ' ∧ opc ≠ '*' ∧ opc ≠ '/' := by
    rcases hopc with ⟨rfl, rfl⟩ | ⟨rfl, rfl⟩ <;> exact ⟨by decide, by decide, by decide⟩
  have hmrl : jsMulRest (g6 + 1 + 1) l
      (' ' :: opc :: ' ' :: (genExprChars r ++ ')' :: rest)) =
      some (l, ' ' :: opc :: ' ' :: (genExprChars r ++ ')' :: rest)) := by
    refine jsMulRest_stop _ _ _ ?_
    intro d tail hd
    rw [skipSpaces_cons_space, skipSpaces_cons_ne _ hopcne.1] at hd
    cases hd
    exact ⟨hopcne.2.1, hopcne.2.2⟩
  have hmul : jsMul (g6 + 1 + 1 + 1)
      (genExprChars l ++ (' ' :: opc :: ' ' :: (genExprChars r ++ ')' :: rest))) =
      some (l, ' ' :: opc :: ' ' :: (genExprChars r ++ ')' :: rest)) := by
    simp only [jsMul]
    rw [hpl]
    exact hmrl
  have har2 : jsAddRest (g6 + 1 + 1) (.bin bop l r) (')' :: rest) =
      some (.bin bop l r, ')' :: rest) := jsAddRest_stop _ _ _ (rparen_stop_add rest)
  have har : jsAddRest (g6 + 1 + 1 + 1) l
      (' ' :: opc :: ' ' :: (genExprChars r ++ ')' :: rest)) =
      some (.bin bop l r, ')' :: rest) := by
    simp only [jsAddRest]
    rw [skipSpaces_cons_space]
    rcases hopc with ⟨rfl, rfl⟩ | ⟨rfl, rfl⟩ <;>
      rw [skipSpaces_cons_ne _ (by decide)] <;> simp [hmulr, har2, skipSpaces_rparen]
  have hadd : jsAdd (g6 + 1 + 1 + 1 + 1)
      (genExprChars l ++ (' ' :: opc :: ' ' :: (genExprChars r ++ ')' :: rest))) =
      some (.bin bop l r, ')' :: rest) := by
    simp only [jsAdd]
    rw [hmul]
    exact har
  have hcmprest : jsCmpRest (g6 + 1 + 1 + 1) (.bin bop l r) (')' :: rest) =
      some (.bin bop l r, ')' :: rest) := jsCmpRest_stop _ _ _ (rparen_stop_cmp rest)
  have hcmp : jsCmp (g6 + 1 + 1 + 1 + 1 + 1)
      (genExprChars l ++ (' ' :: opc :: ' ' :: (genExprChars r ++ ')' :: rest))) =
      some (.bin bop l r, ')' :: rest) := by
    simp only [jsCmp]
    rw [hadd]
    exact hcmprest
  simp only [jsPrim]
  rw [skipSpaces_cons_ne _ (by decide)]
  simp [hcmp, skipSpaces_rparen]



theorem jsPrim_gen (e : Expr) : ∀ (g : Nat) (rest : List Char),
    ArithWf e = true → 8 * esize e ≤ g → sepOk rest = true →
    jsPrim g (genExprChars e ++ rest) = some (e, rest) := by
  induction e with
  | numLit lit =>
    intro g rest hwf hg hsep
    obtain ⟨g1, rfl⟩ : ∃ k, g = k + 1 := ⟨g - 1, by simp [esize] at hg; omega⟩
    exact jsPrim_num g1 lit rest (by simpa [ArithWf] using hwf) hsep
  | strLit v =>
    intro g rest hwf _ _
    simp [ArithWf] at hwf
  | var x =>
    intro g rest hwf hg hsep
    obtain ⟨g1, rfl⟩ : ∃ k, g = k + 1 := ⟨g - 1, by simp [esize] at hg; omega⟩
    exact jsPrim_var g1 x rest (by simpa [ArithWf] using hwf) hsep
  | bin op l r ihl ihr =>
    intro g rest hwf hg hsep
    simp [ArithWf] at hwf
    obtain ⟨⟨hop, hl⟩, hr⟩ := hwf
    have hel := esize_pos l
    have her := esize_pos r
    simp [esize] at hg
    obtain ⟨g6, rfl⟩ : ∃ k, g = k + 1 + 1 + 1 + 1 + 1 + 1 := ⟨g - 6, by omega⟩
    have hbl : 8 * esize l ≤ g6 + 1 + 1 := by omega
    have hbr : 8 * esize r ≤ g6 + 1 := by omega
    cases op with
    | mul =>
      have hG : genExprChars (Expr.bin .mul l r) ++ rest =
          '(' :: (genExprChars l ++
            (' ' :: '*' :: ' ' :: (genExprChars r ++ ')' :: rest))) := by
        simp [genExprChars, BinOp.text]
      rw [hG]
      exact jsBin_muldiv g6 l r .mul '*' rest (Or.inl ⟨rfl, rfl⟩)
        (ihl _ _ hl hbl (sepOk_space _)) (ihr _ _ hr hbr (sepOk_rparen _))
    | div =>
      have hG : genExprChars (Expr.bin .div l r) ++ rest =
          '(' :: (genExprChars l ++
            (' ' :: '/' :: ' ' :: (genExprChars r ++ ')' :: rest))) := by
        simp [genExprChars, BinOp.text]
      rw [hG]
      exact jsBin_muldiv g6 l r .div '/' rest (Or.inr ⟨rfl, rfl⟩)
        (ihl _ _ hl hbl (sepOk_space _)) (ihr _ _ hr hbr (sepOk_rparen _))
    | add =>
      have hG : genExprChars (Expr.bin .add l r) ++ rest =
          '(' :: (genExprChars l ++
            (' ' :: '+' :: ' ' :: (genExprChars r ++ ')' :: rest))) := by
        simp [genExprChars, BinOp.text]
      rw [hG]
      exact jsBin_addsub g6 l r .add '+' rest (Or.inl ⟨rfl, rfl⟩)
        (ihl _ _ hl hbl (sepOk_space _)) (ihr _ _ hr hbr (sepOk_rparen _))
    | sub =>
      have hG : genExprChars (Expr.bin .sub l r) ++ rest =
          '(' :: (genExprChars l ++
            (' ' :: '-' :: ' ' :: (genExprChars r ++ ')' :: rest))) := by
        simp [genExprChars, BinOp.text]
      rw [hG]
      exact jsBin_addsub g6 l r .sub '-' rest (Or.inr ⟨rfl, rfl⟩)
        (ihl _ _ hl hbl (sepOk_space _)) (ihr _ _ hr hbr (sepOk_rparen _))
    | lt => simp [arithOp] at hop
    | gt => simp [arithOp] at hop
    | le => simp [arithOp] at hop
    | ge => simp [arithOp] at hop
    | eq => simp [arithOp] at hop
    | ne => simp [arithOp] at hop



theorem nil_stop2 (a b : Char) :
    ∀ d tail, skipSpaces [] = d :: tail → d ≠ a ∧ d ≠ b := by
  intro d tail hd
  simp [skipSpaces] at hd

theorem nil_stop4 (a b c e : Char) :
    ∀ d tail, skipSpaces [] = d :: tail → d ≠ a ∧ d ≠ b ∧ d ≠ c ∧ d ≠ e := by
  intro d tail hd
  simp [skipSpaces] at hd

theorem esize_le_length (e : Expr) (hwf : ArithWf e = true) :
    esize e ≤ (genExprChars e).length := by
  induction e with
  | numLit lit =>
    obtain ⟨data⟩ := lit
    cases data with
    | nil => simp [ArithWf, litWf, String.toList] at hwf
    | cons c cs => simp [esize, genExprChars, String.toList]
  | strLit v => simp [ArithWf] at hwf
  | var x =>
    obtain ⟨data⟩ := x
    cases data with
    | nil => simp [ArithWf, identWf, String.toList] at hwf
    | cons c cs => simp [esize, genExprChars, String.toList]
  | bin op l r ihl ihr =>
    simp [ArithWf] at hwf
    obtain ⟨⟨hop, hl⟩, hr⟩ := hwf
    have h1 := ihl hl
    have h2 := ihr hr
    simp [esize, genExprChars]
    omega

theorem jsCmp_gen (e : Expr) (g : Nat) (hwf : ArithWf e = true)
    (hg : 8 * esize e + 4 ≤ g) : jsCmp g (genExprChars e) = some (e, []) := by
  have he := esize_pos e
  obtain ⟨g3, rfl⟩ : ∃ k, g = k + 1 + 1 + 1 + 1 := ⟨g - 4, by omega⟩
  have hp : jsPrim (g3 + 1) (genExprChars e) = some (e, []) := by
    have := jsPrim_gen e (g3 + 1) [] hwf (by omega) rfl
    rwa [List.append_nil] at this
  have hmr : jsMulRest (g3 + 1) e [] = some (e, []) :=
    jsMulRest_stop g3 _ _ (nil_stop2 _ _)
  have hmul : jsMul (g3 + 1 + 1) (genExprChars e) = some (e, []) := by
    simp only [jsMul]
    rw [hp]
    exact hmr
  have har : jsAddRest (g3 + 1 + 1) e [] = some (e, []) :=
    jsAddRest_stop _ _ _ (nil_stop2 _ _)
  have hadd : jsAdd (g3 + 1 + 1 + 1) (genExprChars e) = some (e, []) := by
    simp only [jsAdd]
    rw [hmul]
    exact har
  have hcr : jsCmpRest (g3 + 1 + 1 + 1) e [] = some (e, []) :=
    jsCmpRest_stop _ _ _ (nil_stop4 _ _ _ _)
  simp only [jsCmp]
  rw [hadd]
  exact hcr

theorem jsParseArith_gen (e : Expr) (hwf : ArithWf e = true) :
    jsParseArith (genExpr e) = some e := by
  have hlen : esize e ≤ (genExprChars e).length := esize_le_length e hwf
  have htl : (genExpr e).toList = genExprChars e := rfl
  simp only [jsParseArith, htl]
  rw [jsCmp_gen e _ hwf (by omega)]
  simp [skipSpaces]


/-! ### Output line classification lemmas -/


theorem toList_append (a b : String) : (a ++ b).toList = a.toList ++ b.toList := by
  cases a
  cases b
  rfl

theorem toList_inj {a b : String} (h : a.toList = b.toList) : a = b := by
  cases a
  cases b
  simp [String.toList] at h
  rw [h]

theorem strHasPrefix_iff {p s : String} :
    strHasPrefix p s = true ↔ ∃ t, s.toList = p.toList ++ t := by
  unfold strHasPrefix
  rw [List.isPrefixOf_iff_prefix]
  constructor
  · rintro ⟨t, ht⟩
    exact ⟨t, ht.symm⟩
  · rintro ⟨t, ht⟩
    exact ⟨t, ht.symm⟩

theorem ident_run_unique {x y p q : List Char}
    (hx : ∀ c ∈ x, isIdentChar c = true) (hy : ∀ c ∈ y, isIdentChar c = true)
    (hp : headStop isIdentChar p) (hq : headStop isIdentChar q)
    (h : x ++ p = y ++ q) : x = y := by
  have h2 := congrArg (List.takeWhile isIdentChar) h
  rwa [takeWhile_run hx hp, takeWhile_run hy hq] at h2

theorem headStop_space (z : List Char) : headStop isIdentChar (' ' :: z) := by
  intro c hc
  simp at hc
  subst hc
  decide

theorem identWf_elim {x : String} (h : identWf x = true) :
    ∃ c cs, x.toList = c :: cs ∧ isIdentStart c = true ∧
      ∀ d ∈ x.toList, isIdentChar d = true := by
  obtain ⟨data⟩ := x
  cases data with
  | nil => simp [identWf, String.toList] at h
  | cons c cs =>
    simp [identWf, String.toList] at h
    exact ⟨c, cs, rfl, h.1, by
      intro d hd
      rcases List.mem_cons.mp hd with rfl | hd2
      · exact identChar_of_start h.1
      · exact h.2.2 d hd2⟩

theorem letPat_toList (x : String) : ("let " ++ x ++ " =").toList =
    'l' :: 'e' :: 't' :: ' ' :: (x.toList ++ [' ', '=']) := by
  cases x
  simp [String.toList]

theorem assignPat_toList (x : String) : (x ++ " =").toList = x.toList ++ [' ', '='] := by
  cases x
  simp [String.toList]

theorem letLine_toList (x E : String) : ("let " ++ x ++ " = " ++ E ++ ";").toList =
    'l' :: 'e' :: 't' :: ' ' :: (x.toList ++ (' ' :: '=' :: ' ' :: (E.toList ++ [';']))) := by
  cases x
  cases E
  simp [String.toList]

theorem plainLine_toList (y E : String) : (y ++ " = " ++ E ++ ";").toList =
    y.toList ++ (' ' :: '=' :: ' ' :: (E.toList ++ [';'])) := by
  cases y
  cases E
  simp [String.toList]

theorem letLine_isLet (x E : String) :
    isLetLine x ("let " ++ x ++ " = " ++ E ++ ";") = true := by
  apply strHasPrefix_iff.mpr
  refine ⟨' ' :: (E.toList ++ [';']), ?_⟩
  rw [letLine_toList, letPat_toList]
  simp

theorem isLet_isAssign {x l : String} (h : isLetLine x l = true) :
    isAssignLine x l = true := by
  simp [isAssignLine, h]

theorem not_isAssign_not_isLet {x l : String} (h : isAssignLine x l = false) :
    isLetLine x l = false := by
  cases hb : isLetLine x l with
  | false => rfl
  | true => rw [isLet_isAssign hb] at h; cases h



theorem isLetLine_false_of_head {x line : String} {c : Char} {r : List Char}
    (hline : line.toList = c :: r) (hc : c ≠ 'l') : isLetLine x line = false := by
  cases hb : isLetLine x line with
  | false => rfl
  | true =>
    exfalso
    obtain ⟨t, ht⟩ := strHasPrefix_iff.mp hb
    rw [hline, letPat_toList] at ht
    simp at ht
    exact hc ht.1

theorem plainPrefix_false_of_run {x line : String} (hx : identWf x = true)
    {w : List Char} {d : Char} {r : List Char}
    (hline : line.toList = w ++ d :: r)
    (hw : ∀ c ∈ w, isIdentChar c = true) (hd : isIdentChar d = false)
    (hmis : ∀ t, d :: r ≠ ' ' :: '=' :: t) :
    strHasPrefix (x ++ " =") line = false := by
  cases hb : strHasPrefix (x ++ " =") line with
  | false => rfl
  | true =>
    exfalso
    obtain ⟨t, ht⟩ := strHasPrefix_iff.mp hb
    rw [hline, assignPat_toList] at ht
    rw [List.append_assoc] at ht
    obtain ⟨xc, xcs, hxl, hxs, hxall⟩ := identWf_elim hx
    have hxw : w = x.toList := by
      refine ident_run_unique hw hxall ?_ (headStop_space _) ht
      intro e he
      simp at he
      subst he
      exact hd
    rw [hxw] at ht
    have ht2 : d :: r = ' ' :: '=' :: t := by
      have := List.append_cancel_left ht
      simpa using this
    exact hmis t ht2

theorem isAssignLine_false_of_head {x line : String} (hx : identWf x = true)
    {c : Char} {r : List Char} (hline : line.toList = c :: r)
    (hc1 : isIdentChar c = false) (hc2 : c ≠ 'l') (hc3 : c ≠ ' ') :
    isAssignLine x line = false := by
  have h1 : isLetLine x line = false := isLetLine_false_of_head hline hc2
  have h2 : strHasPrefix (x ++ " =") line = false := by
    have := plainPrefix_false_of_run hx (w := []) (d := c) (r := r)
      (by simpa using hline) (by simp) hc1 ?_
    · exact this
    · intro t h
      simp at h
      exact hc3 h.1
  simp [isAssignLine, h1, h2]



theorem letLine_isLet_other {x y : String} (E : String) (hx : identWf x = true)
    (hy : identWf y = true) (hne : x ≠ y) :
    isLetLine x ("let " ++ y ++ " = " ++ E ++ ";") = false := by
  cases hb : isLetLine x ("let " ++ y ++ " = " ++ E ++ ";") with
  | false => rfl
  | true =>
    exfalso
    obtain ⟨t, ht⟩ := strHasPrefix_iff.mp hb
    rw [letLine_toList, letPat_toList] at ht
    simp only [List.cons_append, List.cons.injEq, true_and, List.append_assoc] at ht
    obtain ⟨xc, xcs, hxl, hxs, hxall⟩ := identWf_elim hx
    obtain ⟨yc, ycs, hyl, hys, hyall⟩ := identWf_elim hy
    have : y.toList = x.toList := by
      refine ident_run_unique hyall hxall (headStop_space _) ?_ ht
      intro e he
      simp at he
      subst he
      decide
    exact hne (toList_inj this).symm

theorem letLine_isAssign_other {x y : String} (E : String) (hx : identWf x = true)
    (hy : identWf y = true) (hne : x ≠ y) :
    isAssignLine x ("let " ++ y ++ " = " ++ E ++ ";") = false := by
  have h1 := letLine_isLet_other E hx hy hne
  have h2 : strHasPrefix (x ++ " =") ("let " ++ y ++ " = " ++ E ++ ";") = false := by
    obtain ⟨yc, ycs, hyl, hys, hyall⟩ := identWf_elim hy
    refine plainPrefix_false_of_run hx (w := ['l', 'e', 't']) (d := ' ')
      (r := y.toList ++ (' ' :: '=' :: ' ' :: (E.toList ++ [';']))) ?_ ?_ (by decide) ?_
    · rw [letLine_toList]
      simp
    · intro c hc
      simp at hc
      rcases hc with rfl | rfl | rfl <;> decide
    · intro t h
      simp only [List.cons.injEq, true_and] at h
      rw [hyl] at h
      simp at h
      rw [h.1] at hys
      exact absurd hys (by decide)
  simp [isAssignLine, h1, h2]

theorem plainLine_isLet {x y : String} (E : String) (hx : identWf x = true)
    (hy : identWf y = true) :
    isLetLine x (y ++ " = " ++ E ++ ";") = false := by
  cases hb : isLetLine x (y ++ " = " ++ E ++ ";") with
  | false => rfl
  | true =>
    exfalso
    obtain ⟨t, ht⟩ := strHasPrefix_iff.mp hb
    rw [plainLine_toList, letPat_toList] at ht
    obtain ⟨xc, xcs, hxl, hxs, hxall⟩ := identWf_elim hx
    obtain ⟨yc, ycs, hyl, hys, hyall⟩ := identWf_elim hy
    have ht2 : y.toList ++ (' ' :: '=' :: ' ' :: (E.toList ++ [';'])) =
        ['l', 'e', 't'] ++ (' ' :: (x.toList ++ ([' ', '='] ++ t))) := by
      rw [ht]
      simp
    have hyt : y.toList = ['l', 'e', 't'] := by
      refine ident_run_unique hyall ?_ (headStop_space _) (headStop_space _) ht2
      intro c hc
      simp at hc
      rcases hc with rfl | rfl | rfl <;> decide
    rw [hyt] at ht2
    simp only [List.cons_append, List.nil_append, List.cons.injEq, true_and] at ht2
    rw [hxl] at ht2
    simp at ht2
    rw [← ht2.1] at hxs
    exact absurd hxs (by decide)

theorem plainLine_isAssign_self (x E : String) :
    isAssignLine x (x ++ " = " ++ E ++ ";") = true := by
  have h2 : strHasPrefix (x ++ " =") (x ++ " = " ++ E ++ ";") = true := by
    apply strHasPrefix_iff.mpr
    refine ⟨' ' :: (E.toList ++ [';']), ?_⟩
    rw [plainLine_toList, assignPat_toList]
    simp
  simp [isAssignLine, h2]

theorem plainLine_isAssign_other {x y : String} (E : String) (hx : identWf x = true)
    (hy : identWf y = true) (hne : x ≠ y) :
    isAssignLine x (y ++ " = " ++ E ++ ";") = false := by
  have h1 := plainLine_isLet E hx hy
  have h2 : strHasPrefix (x ++ " =") (y ++ " = " ++ E ++ ";") = false := by
    cases hb : strHasPrefix (x ++ " =") (y ++ " = " ++ E ++ ";") with
    | false => rfl
    | true =>
      exfalso
      obtain ⟨t, ht⟩ := strHasPrefix_iff.mp hb
      rw [plainLine_toList, assignPat_toList] at ht
      rw [List.append_assoc] at ht
      obtain ⟨xc, xcs, hxl, hxs, hxall⟩ := identWf_elim hx
      obtain ⟨yc, ycs, hyl, hys, hyall⟩ := identWf_elim hy
      have : y.toList = x.toList := by
        refine ident_run_unique hyall hxall (headStop_space _) (headStop_space _) ht
      exact hne (toList_inj this).symm
  simp [isAssignLine, h1, h2]



theorem echoLine_toList (E : String) : ("console.log(" ++ E ++ ");").toList =
    ['c', 'o', 'n', 's', 'o', 'l', 'e'] ++ '.' ::
      ('l' :: 'o' :: 'g' :: '(' :: (E.toList ++ (");").toList)) := by
  cases E
  simp [String.toList]

theorem ifLine_toList (E : String) : ("if (" ++ E ++ ") \x7b").toList =
    ['i', 'f'] ++ ' ' :: ('(' :: (E.toList ++ (") \x7b").toList)) := by
  cases E
  simp [String.toList]

theorem whileLine_toList (E : String) : ("while (" ++ E ++ ") \x7b").toList =
    ['w', 'h', 'i', 'l', 'e'] ++ ' ' :: ('(' :: (E.toList ++ (") \x7b").toList)) := by
  cases E
  simp [String.toList]

theorem echoLine_isAssign {x : String} (E : String) (hx : identWf x = true) :
    isAssignLine x ("console.log(" ++ E ++ ");") = false := by
  have h1 : isLetLine x ("console.log(" ++ E ++ ");") = false :=
    isLetLine_false_of_head (c := 'c')
      (r := 'o' :: 'n' :: 's' :: 'o' :: 'l' :: 'e' :: '.' :: 'l' :: 'o' :: 'g' :: '(' ::
        (E.toList ++ (");").toList))
      (by rw [echoLine_toList]; rfl) (by decide)
  have h2 := plainPrefix_false_of_run hx (echoLine_toList E)
    (by intro c hc; simp at hc; rcases hc with rfl | rfl | rfl | rfl | rfl | rfl | rfl <;> decide)
    (by decide)
    (by intro t h; simp at h)
  simp [isAssignLine, h1, h2]

theorem ifLine_isAssign {x : String} (E : String) (hx : identWf x = true) :
    isAssignLine x ("if (" ++ E ++ ") \x7b") = false := by
  have h1 : isLetLine x ("if (" ++ E ++ ") \x7b") = false :=
    isLetLine_false_of_head (c := 'i')
      (r := 'f' :: ' ' :: '(' :: (E.toList ++ (") \x7b").toList))
      (by rw [ifLine_toList]; rfl) (by decide)
  have h2 := plainPrefix_false_of_run hx (ifLine_toList E)
    (by intro c hc; simp at hc; rcases hc with rfl | rfl <;> decide)
    (by decide)
    (by intro t h; simp at h)
  simp [isAssignLine, h1, h2]

theorem whileLine_isAssign {x : String} (E : String) (hx : identWf x = true) :
    isAssignLine x ("while (" ++ E ++ ") \x7b") = false := by
  have h1 : isLetLine x ("while (" ++ E ++ ") \x7b") = false :=
    isLetLine_false_of_head (c := 'w')
      (r := 'h' :: 'i' :: 'l' :: 'e' :: ' ' :: '(' :: (E.toList ++ (") \x7b").toList))
      (by rw [whileLine_toList]; rfl) (by decide)
  have h2 := plainPrefix_false_of_run hx (whileLine_toList E)
    (by intro c hc; simp at hc; rcases hc with rfl | rfl | rfl | rfl | rfl <;> decide)
    (by decide)
    (by intro t h; simp at h)
  simp [isAssignLine, h1, h2]

theorem rbraceLine_isAssign {x : String} (hx : identWf x = true) :
    isAssignLine x "\x7d" = false :=
  isAssignLine_false_of_head hx (c := '\x7d') (r := []) (by decide) (by decide)
    (by decide) (by decide)

theorem elseLine_isAssign {x : String} (hx : identWf x = true) :
    isAssignLine x "\x7d else \x7b" = false :=
  isAssignLine_false_of_head hx (c := '\x7d')
    (r := [' ', 'e', 'l', 's', 'e', ' ', '\x7b']) (by decide) (by decide)
    (by decide) (by decide)

theorem lbraceLine_isAssign {x : String} (hx : identWf x = true) :
    isAssignLine x "\x7b" = false :=
  isAssignLine_false_of_head hx (c := '\x7b') (r := []) (by decide) (by decide)
    (by decide) (by decide)


/-! ### Generator invariant: one let per name, first -/


theorem GenInv.neutral (x : String) (decls : List String) (line : String)
    (hline : isAssignLine x line = false) : GenInv x decls false [line] decls := by
  refine ⟨fun z hz => hz, by simp, ?_, ?_, ?_⟩
  · intro _ l hl
    simp at hl
    subst hl
    exact not_isAssign_not_isLet hline
  · intro _ _ l hl
    simp at hl
    subst hl
    exact hline
  · intro _ h
    cases h

theorem GenInv.seq {x : String} {d0 d1 d2 : List String} {a1 a2 : Bool}
    {l1 l2 : List String} (h1 : GenInv x d0 a1 l1 d1) (h2 : GenInv x d1 a2 l2 d2) :
    GenInv x d0 (a1 || a2) (l1 ++ l2) d2 := by
  obtain ⟨m1, i1, c1, n1, e1⟩ := h1
  obtain ⟨m2, i2, c2, n2, e2⟩ := h2
  refine ⟨fun z hz => m2 z (m1 z hz), ?_, ?_, ?_, ?_⟩
  · rw [i2, i1]
    constructor
    · rintro ((h | h) | h)
      · exact Or.inl h
      · exact Or.inr (by simp [h])
      · exact Or.inr (by simp [h])
    · rintro (h | h)
      · exact Or.inl (Or.inl h)
      · rcases Bool.or_eq_true_iff.mp h with h | h
        · exact Or.inl (Or.inr h)
        · exact Or.inr h
  · intro hx l hl
    rcases List.mem_append.mp hl with hl | hl
    · exact c1 hx l hl
    · exact c2 (m1 x hx) l hl
  · intro hx ha l hl
    rcases Bool.or_eq_false_iff.mp ha with ⟨ha1, ha2⟩
    rcases List.mem_append.mp hl with hl | hl
    · exact n1 hx ha1 l hl
    · refine n2 ?_ ha2 l hl
      rw [i1]
      rintro (h | h)
      · exact hx h
      · rw [ha1] at h
        cases h
  · intro hx ha
    cases ha1 : a1 with
    | true =>
      obtain ⟨pre, e, post, hls, hpre, hpost⟩ := e1 hx ha1
      refine ⟨pre, e, post ++ l2, by rw [hls]; simp, hpre, ?_⟩
      intro l hl
      rcases List.mem_append.mp hl with hl | hl
      · exact hpost l hl
      · refine c2 ?_ l hl
        rw [i1]
        exact Or.inr ha1
    | false =>
      have ha2 : a2 = true := by
        rw [ha1] at ha
        simpa using ha
      have hxd1 : x ∉ d1 := by
        rw [i1]
        rintro (h | h)
        · exact hx h
        · rw [ha1] at h
          cases h
      obtain ⟨pre, e, post, hls, hpre, hpost⟩ := e2 hxd1 ha2
      refine ⟨l1 ++ pre, e, post, by rw [hls]; simp, ?_, hpost⟩
      intro l hl
      rcases List.mem_append.mp hl with hl | hl
      · exact n1 hx ha1 l hl
      · exact hpre l hl

theorem GenInv.cast {x : String} {d0 d2 : List String} {a b : Bool}
    {ls : List String} (h : GenInv x d0 a ls d2) (hab : a = b) :
    GenInv x d0 b ls d2 := hab ▸ h

theorem GenInv.wrap {x : String} {d0 d2 : List String} {a : Bool}
    {ls : List String} (hd : String) (tl : String)
    (hhd : isAssignLine x hd = false) (htl : isAssignLine x tl = false)
    (h : GenInv x d0 a ls d2) :
    GenInv x d0 a (hd :: ls ++ [tl]) d2 := by
  have h1 := (GenInv.neutral x d0 hd hhd).seq h
  have h2 := h1.seq (GenInv.neutral x d2 tl htl)
  simpa using h2



theorem GenInv.assignStmt (x y : String) (e : Expr) (decls : List String)
    (hx : identWf x = true) (hy : identWf y = true) :
    GenInv x decls (stmtAssigns x (.assign y e)) (genStmt decls (.assign y e)).1
      (genStmt decls (.assign y e)).2 := by
  by_cases hyd : y ∈ decls
  · simp only [genStmt, if_pos hyd]
    by_cases hxy : x = y
    · subst hxy
      refine ⟨fun z hz => hz, by simp [stmtAssigns, hyd], ?_, ?_, ?_⟩
      · intro _ l hl
        simp at hl
        subst hl
        exact plainLine_isLet _ hx hx
      · intro hxd _
        exact absurd hyd hxd
      · intro hxd _
        exact absurd hyd hxd
    · refine ⟨fun z hz => hz, by simp [stmtAssigns, hxy], ?_, ?_, ?_⟩
      · intro _ l hl
        simp at hl
        subst hl
        exact plainLine_isLet _ hx hy
      · intro _ _ l hl
        simp at hl
        subst hl
        exact plainLine_isAssign_other _ hx hy hxy
      · intro _ ha
        simp [stmtAssigns, hxy] at ha
  · simp only [genStmt, if_neg hyd]
    by_cases hxy : x = y
    · subst hxy
      refine ⟨fun z hz => List.mem_cons_of_mem _ hz, by simp [stmtAssigns], ?_, ?_, ?_⟩
      · intro hxd
        exact absurd hxd hyd
      · intro _ ha
        simp [stmtAssigns] at ha
      · intro _ _
        exact ⟨[], e, [], by simp, by simp, by simp⟩
    · refine ⟨fun z hz => List.mem_cons_of_mem _ hz, ?_, ?_, ?_, ?_⟩
      · simp [stmtAssigns, hxy]
      · intro hxd l hl
        simp at hl
        subst hl
        exact letLine_isLet_other _ hx hy hxy
      · intro _ _ l hl
        simp at hl
        subst hl
        exact letLine_isAssign_other _ hx hy hxy
      · intro _ ha
        simp [stmtAssigns, hxy] at ha



mutual

theorem genStmt_inv (x : String) (hx : identWf x = true) (s : Stmt)
    (decls : List String) (hwf : stmtNamesWf s = true) :
    GenInv x decls (stmtAssigns x s) (genStmt decls s).1 (genStmt decls s).2 :=
  match s with
  | .assign y e => GenInv.assignStmt x y e decls hx (by simpa [stmtNamesWf] using hwf)
  | .echoS e => by
    simpa [genStmt, stmtAssigns] using
      GenInv.neutral x decls ("console.log(" ++ genExpr e ++ ");")
        (echoLine_isAssign (genExpr e) hx)
  | .ifS c thn => by
    have hinv := genStmts_inv x hx thn decls (by simpa [stmtNamesWf] using hwf)
    have h := GenInv.wrap ("if (" ++ genExpr c ++ ") \x7b") "\x7d"
      (ifLine_isAssign (genExpr c) hx) (rbraceLine_isAssign hx) hinv
    simpa [genStmt, stmtAssigns] using h
  | .ifElseS c thn els => by
    have hwf2 : stmtsNamesWf thn = true ∧ stmtsNamesWf els = true := by
      simpa [stmtNamesWf] using hwf
    have h1 := genStmts_inv x hx thn decls hwf2.1
    have h2 := genStmts_inv x hx els (genStmts decls thn).2 hwf2.2
    have hm := (h1.seq ((GenInv.neutral x _ "\x7d else \x7b" (elseLine_isAssign hx)).seq
      h2)).cast (b := stmtsAssigns x thn || stmtsAssigns x els) (by simp)
    have h := GenInv.wrap ("if (" ++ genExpr c ++ ") \x7b") "\x7d"
      (ifLine_isAssign (genExpr c) hx) (rbraceLine_isAssign hx) hm
    simpa [genStmt, stmtAssigns] using h
  | .whileS c body => by
    have hinv := genStmts_inv x hx body decls (by simpa [stmtNamesWf] using hwf)
    have h := GenInv.wrap ("while (" ++ genExpr c ++ ") \x7b") "\x7d"
      (whileLine_isAssign (genExpr c) hx) (rbraceLine_isAssign hx) hinv
    simpa [genStmt, stmtAssigns] using h
  | .blockS body => by
    have hinv := genStmts_inv x hx body decls (by simpa [stmtNamesWf] using hwf)
    have h := GenInv.wrap "\x7b" "\x7d"
      (lbraceLine_isAssign hx) (rbraceLine_isAssign hx) hinv
    simpa [genStmt, stmtAssigns] using h

theorem genStmts_inv (x : String) (hx : identWf x = true) (ss : StmtList)
    (decls : List String) (hwf : stmtsNamesWf ss = true) :
    GenInv x decls (stmtsAssigns x ss) (genStmts decls ss).1 (genStmts decls ss).2 :=
  match ss with
  | .nil => by
    refine ⟨fun z hz => hz, by simp [stmtsAssigns, genStmts], ?_, ?_, ?_⟩
    · intro _ l hl
      simp [genStmts] at hl
    · intro _ _ l hl
      simp [genStmts] at hl
    · intro _ ha
      simp [stmtsAssigns] at ha
  | .cons s rest => by
    have hwf2 : stmtNamesWf s = true ∧ stmtsNamesWf rest = true := by
      simpa [stmtsNamesWf] using hwf
    have h1 := genStmt_inv x hx s decls hwf2.1
    have h2 := genStmts_inv x hx rest (genStmt decls s).2 hwf2.2
    have h := h1.seq h2
    simpa [genStmts, stmtsAssigns] using h

end



mutual

theorem stmtAssigns_of_count (x : String) (s : Stmt)
    (h : 1 ≤ stmtAssignCount x s) : stmtAssigns x s = true :=
  match s with
  | .assign y e => by
    by_cases hxy : x = y
    · simp [stmtAssigns, hxy]
    · simp [stmtAssignCount, hxy] at h
  | .echoS e => by simp [stmtAssignCount] at h
  | .ifS c thn => by
    simp only [stmtAssignCount] at h
    simpa [stmtAssigns] using stmtsAssigns_of_count x thn h
  | .ifElseS c thn els => by
    simp only [stmtAssignCount] at h
    rcases Nat.lt_or_ge (stmtsAssignCount x thn) 1 with h1 | h1
    · have h2 : 1 ≤ stmtsAssignCount x els := by omega
      simp [stmtAssigns, stmtsAssigns_of_count x els h2]
    · simp [stmtAssigns, stmtsAssigns_of_count x thn h1]
  | .whileS c body => by
    simp only [stmtAssignCount] at h
    simpa [stmtAssigns] using stmtsAssigns_of_count x body h
  | .blockS body => by
    simp only [stmtAssignCount] at h
    simpa [stmtAssigns] using stmtsAssigns_of_count x body h

theorem stmtsAssigns_of_count (x : String) (ss : StmtList)
    (h : 1 ≤ stmtsAssignCount x ss) : stmtsAssigns x ss = true :=
  match ss with
  | .nil => by simp [stmtsAssignCount] at h
  | .cons s rest => by
    simp only [stmtsAssignCount] at h
    rcases Nat.lt_or_ge (stmtAssignCount x s) 1 with h1 | h1
    · have h2 : 1 ≤ stmtsAssignCount x rest := by omega
      simp [stmtsAssigns, stmtsAssigns_of_count x rest h2]
    · simp [stmtsAssigns, stmtAssigns_of_count x s h1]

end

theorem genLines_single_let (p : StmtList) (x : String) (hx : identWf x = true)
    (hwf : stmtsNamesWf p = true) (hcount : 2 ≤ stmtsAssignCount x p) :
    ∃ pre e post,
      jsLines p = pre ++ ("let " ++ x ++ " = " ++ genExpr e ++ ";") :: post ∧
      (∀ l ∈ pre, isAssignLine x l = false) ∧
      (∀ l ∈ post, isLetLine x l = false) := by
  have hinv := genStmts_inv x hx p [] hwf
  exact hinv.2.2.2.2 (by simp) (stmtsAssigns_of_count x p (by omega))





/-! ### Claim theorems -/


theorem evalArith_isSome (env : Env) (e : Expr) (hwf : ArithWf e = true) :
    ∃ v, evalArith env e = some v := by
  induction e with
  | numLit lit => exact ⟨numValue lit, rfl⟩
  | strLit v => simp [ArithWf] at hwf
  | var x => exact ⟨env x, rfl⟩
  | bin op l r ihl ihr =>
    simp [ArithWf] at hwf
    obtain ⟨⟨hop, hl⟩, hr⟩ := hwf
    obtain ⟨vl, hvl⟩ := ihl hl
    obtain ⟨vr, hvr⟩ := ihr hr
    cases op <;> simp [arithOp] at hop <;> simp [evalArith, hvl, hvr]

theorem c1Expr_eval : evalArith envAB c1Expr = some 21 := by
  have hd : List.dropWhile isDigitCh ['1', '0'] = [] := by decide
  have ht : digitsVal (List.takeWhile isDigitCh ['1', '0']) = 10 := by decide
  have hnv : numValue "10" = (10 : ℚ) := by simp [numValue, hd, ht]
  simp [c1Expr, evalArith, envAB, hnv]
  norm_num

theorem c1Expr_read : jsParseArith (genExpr c1Expr) = some c1Expr := by rfl

theorem c1Expr_jsEval : jsEvalString (genExpr c1Expr) envAB = some 21 := by
  rw [jsEvalString, c1Expr_read]
  exact c1Expr_eval

/-- C1: for every arithmetic expression over `+ - * /`, parentheses, number
literals and variables, reading the JavaScript text the generator emits back
with JavaScript operator precedence and evaluating it under any numeric
substitution gives exactly the value of the expression itself under standard
arithmetic precedence (the AST built by the precedence-climbing parser); in
particular `$a = 1; $b = 2; $c = $a + $b * 10;` transpiles to text whose
expression for `c` is `(a + (b * 10))`, which evaluates to `21`, not `30`. -/
theorem claim_C1_precedence_preservation :
    (∀ (e : Expr) (env : Env), ArithWf e = true →
      ∃ v, jsEvalString (genExpr e) env = some v ∧ evalArith env e = some v) ∧
    transpile c1Input = .ok c1Output ∧
    parsedProgram c1Input = some c1Prog ∧
    genExpr c1Expr = "(a + (b * 10))" ∧
    jsEvalString (genExpr c1Expr) envAB = some 21 ∧
    jsEvalString (genExpr c1Expr) envAB ≠ some 30 := by
  refine ⟨?_, rfl, rfl, rfl, c1Expr_jsEval, ?_⟩
  · intro e env hwf
    obtain ⟨v, hv⟩ := evalArith_isSome env e hwf
    refine ⟨v, ?_, hv⟩
    rw [jsEvalString, jsParseArith_gen e hwf]
    exact hv
  · rw [c1Expr_jsEval]
    intro h
    exact absurd (Option.some.inj h) (by norm_num)

/-- Witness for C1 at the concrete expression `(2 + z)` under the
substitution mapping every variable to `5`. -/
theorem claim_C1_witness :
    ∃ v, jsEvalString (genExpr (Expr.bin .add (.numLit "2") (.var "z")))
        (fun _ => 5) = some v ∧
      evalArith (fun _ => 5) (Expr.bin .add (.numLit "2") (.var "z")) = some v :=
  claim_C1_precedence_preservation.1 (Expr.bin .add (.numLit "2") (.var "z"))
    (fun _ => 5) (by decide)



/-- C2: `transpile` is deterministic — it is a pure function of its input
text, so any two results of the same input are identical (byte-identical
output on success, identical structured error on failure); the embedding has
no external state to depend on. -/
theorem claim_C2_determinism : ∀ (s : String) (r₁ r₂ : Except TranspileError String),
    transpile s = r₁ → transpile s = r₂ → r₁ = r₂ := by
  intro s r₁ r₂ h1 h2
  rw [← h1, ← h2]

/-- Witness for C2: two runs on the precedence scenario input agree. -/
theorem claim_C2_witness :
    (Except.ok c1Output : Except TranspileError String) = Except.ok c1Output :=
  claim_C2_determinism c1Input (.ok c1Output) (.ok c1Output) rfl rfl

/-- C3 counterexample: the program `echo $x; $x = 1; $x = 2;` assigns `x`
twice, and its output holds exactly one `let x` declaration (on the second
line), yet the first output line `console.log(x);` already uses `x` as an
identifier — the declaration does not precede every other use of the name. -/
theorem claim_C3_counterexample :
    parsedProgram cexInput = some cexProg ∧
    stmtsAssignCount "x" cexProg = 2 ∧
    jsLines cexProg = ["console.log(x);", "let x = 1;", "x = 2;"] ∧
    transpile cexInput = .ok "console.log(x);\nlet x = 1;\nx = 2;" ∧
    usesIdent "x" "console.log(x);" = true ∧
    isLetLine "x" "console.log(x);" = false ∧
    isLetLine "x" "let x = 1;" = true ∧
    isLetLine "x" "x = 2;" = false :=
  ⟨rfl, rfl, rfl, rfl, rfl, rfl, rfl, rfl⟩

/-- C3 (amended): for every program that assigns the same well-formed
variable name more than once, the emitted lines hold exactly one `let`
declaration of that name, and no assignment line for the name precedes it
(pure reads of the name may still appear before it when the program reads the
variable before its first assignment). -/
theorem claim_C3_single_let_before_assignments (p : StmtList) (x : String)
    (hx : identWf x = true) (hwf : stmtsNamesWf p = true)
    (hcount : 2 ≤ stmtsAssignCount x p) :
    ∃ pre e post,
      jsLines p = pre ++ ("let " ++ x ++ " = " ++ genExpr e ++ ";") :: post ∧
      (∀ l ∈ pre, isAssignLine x l = false) ∧
      (∀ l ∈ post, isLetLine x l = false) :=
  genLines_single_let p x hx hwf hcount

/-- Witness for C3 at the program `echo $x; $x = 1; $x = 2;`. -/
theorem claim_C3_witness :
    ∃ pre e post,
      jsLines cexProg = pre ++ ("let " ++ "x" ++ " = " ++ genExpr e ++ ";") :: post ∧
      (∀ l ∈ pre, isAssignLine "x" l = false) ∧
      (∀ l ∈ post, isLetLine "x" l = false) :=
  claim_C3_single_let_before_assignments cexProg "x" (by decide) (by decide) (by decide)

/-- C4: the transpiler core exposes the single boundary operation
`transpile` from text to JavaScript text or a structured error, and the UI
invokes exactly the exported symbol `transpile` through `ccall` with one
string argument, a string return type, and consumes one string result. -/
theorem claim_C4_single_boundary_operation : ∀ php : String,
    (transpileCall php).ident = "transpile" ∧
    (transpileCall php).returnType = "string" ∧
    (transpileCall php).argTypes = ["string"] ∧
    (transpileCall php).args = [php] ∧
    (transpileCall php).args.length = 1 ∧
    ∀ src : String, (∃ out, transpile src = .ok out) ∨ ∃ err, transpile src = .error err := by
  intro php
  refine ⟨rfl, rfl, rfl, rfl, rfl, ?_⟩
  intro src
  cases h : transpile src with
  | ok out => exact Or.inl ⟨out, rfl⟩
  | error err => exact Or.inr ⟨err, rfl⟩

/-- C5: whenever `transpile` fails, the returned error names the failing
stage, carries a source position (present by construction) and a nonempty
message, and is exactly the uniform wrapping of the failing stage error,
forwarded unchanged — never swallowed or downgraded to partial output. -/
theorem claim_C5_error_fields_populated :
    ∀ (s : String) (err : TranspileError), transpile s = .error err →
    (err.stage = "lex" ∨ err.stage = "parse") ∧ err.message ≠ "" ∧
    ((∃ e, tokenize s = .error e ∧ err = wrapLex e) ∨
      (∃ tks e, tokenize s = .ok tks ∧ parseProgram tks = .error e ∧ err = wrapParse e)) := by
  intro s err h
  cases htk : tokenize s with
  | error e =>
    simp only [transpile, htk] at h
    cases h
    refine ⟨Or.inl rfl, ?_, Or.inl ⟨e, rfl, rfl⟩⟩
    intro hmsg
    have := congrArg String.length hmsg
    simp [wrapLex, String.length_append] at this
  | ok tks =>
    cases hp : parseProgram tks with
    | error e =>
      simp only [transpile, htk, hp] at h
      cases h
      refine ⟨Or.inr rfl, ?_, Or.inr ⟨tks, e, rfl, hp, rfl⟩⟩
      intro hmsg
      have := congrArg String.length hmsg
      simp [wrapParse, String.length_append] at this
      exact absurd this.1.1.1 (by decide)
    | ok prog =>
      simp only [transpile, htk, hp] at h
      cases h

/-- Witness for C5 at the lexer-rejected input `@`. -/
theorem claim_C5_witness :
    ((wrapLex ⟨0, '@'⟩).stage = "lex" ∨ (wrapLex ⟨0, '@'⟩).stage = "parse") ∧
    (wrapLex ⟨0, '@'⟩).message ≠ "" ∧
    ((∃ e, tokenize "@" = .error e ∧ wrapLex ⟨0, '@'⟩ = wrapLex e) ∨
      (∃ tks e, tokenize "@" = .ok tks ∧ parseProgram tks = .error e ∧
        wrapLex ⟨0, '@'⟩ = wrapParse e)) :=
  claim_C5_error_fields_populated "@" (wrapLex ⟨0, '@'⟩) rfl

/-- C6: the malformed input `$a = ;` makes `transpile` fail with a parse
error at offset 5, the position of the `;` found where the missing
expression was expected, with no output text produced; and whichever stage
fails first short-circuits the rest of the pipeline. -/
theorem claim_C6_parse_error_short_circuit :
    transpile "$a = ;" = .error ⟨"parse", 5, "expected expression, found symbol ;"⟩ ∧
    (∀ (s : String) (e : LexError), tokenize s = .error e →
      transpile s = .error (wrapLex e)) ∧
    (∀ (s : String) (tks : List Token) (e : ParseError),
      tokenize s = .ok tks → parseProgram tks = .error e →
      transpile s = .error (wrapParse e)) := by
  refine ⟨by rfl, ?_, ?_⟩
  · intro s e h
    simp [transpile, h]
  · intro s tks e h1 h2
    simp [transpile, h1, h2]

/-- Witness for C6: a lexer error short-circuits the pipeline on `@`. -/
theorem claim_C6_witness : transpile "@" = .error (wrapLex ⟨0, '@'⟩) :=
  claim_C6_parse_error_short_circuit.2.1 "@" ⟨0, '@'⟩ rfl



/-- C7: a `$name` occurrence lexes to a single `Identifier` token whose value
is `name` without the sigil (the rest of the input lexes on independently),
and multi-character operators are matched greedily: `<=` is one token rather
than `<` then `=`, and `==` is one token rather than two `=`; shown both as
step lemmas of the lexer at any position and on whole inputs. -/
theorem claim_C7_sigil_and_greedy_operators :
    (∀ (fuel : Nat) (d : Char) (ds rest : List Char) (pos : Nat),
      isIdentStart d = true → (∀ c ∈ ds, isIdentChar c = true) →
      headStop isIdentChar rest →
      lexAux (fuel + 1) ('$' :: (d :: ds) ++ rest) pos =
        (Token.mk (.ident ⟨d :: ds⟩) pos :: ·) <$>
          lexAux fuel rest (pos + 1 + (d :: ds).length)) ∧
    (∀ (fuel : Nat) (rest : List Char) (pos : Nat),
      lexAux (fuel + 1) ('<' :: '=' :: rest) pos =
        (Token.mk (.op "<=") pos :: ·) <$> lexAux fuel rest (pos + 2)) ∧
    (∀ (fuel : Nat) (rest : List Char) (pos : Nat),
      lexAux (fuel + 1) ('=' :: '=' :: rest) pos =
        (Token.mk (.op "==") pos :: ·) <$> lexAux fuel rest (pos + 2)) ∧
    tokenize "$abc" = .ok [⟨.ident "abc", 0⟩, ⟨.eof, 4⟩] ∧
    tokenize "$a <= $b" =
      .ok [⟨.ident "a", 0⟩, ⟨.op "<=", 3⟩, ⟨.ident "b", 6⟩, ⟨.eof, 8⟩] ∧
    tokenize "$a == $b" =
      .ok [⟨.ident "a", 0⟩, ⟨.op "==", 3⟩, ⟨.ident "b", 6⟩, ⟨.eof, 8⟩] :=
  ⟨lexAux_dollar, lexAux_le, lexAux_eqeq, rfl, rfl, rfl⟩

/-- Witness for C7: the sigil step lemma applied to `$a` at the end of
input. -/
theorem claim_C7_witness :
    lexAux (3 + 1) ('$' :: ('a' :: []) ++ []) 0 =
      (Token.mk (.ident ⟨'a' :: []⟩) 0 :: ·) <$>
        lexAux 3 [] (0 + 1 + (('a' : Char) :: ([] : List Char)).length) :=
  claim_C7_sigil_and_greedy_operators.1 3 'a' [] [] 0 (by decide)
    (by intro c hc; simp at hc) (by intro c hc; simp at hc)

/-- C8: while the WASM module has not finished loading (the module reference
is still null), the convert action returns early: the whole component state,
in particular the PHP input text and the JavaScript output text, is left
unchanged. -/
theorem claim_C8_no_module_no_change : ∀ s : UIState,
    runTranspile none s = s ∧
    (runTranspile none s).phpCode = s.phpCode ∧
    (runTranspile none s).jsCode = s.jsCode :=
  fun _ => ⟨rfl, rfl, rfl⟩

/-- C9: when the module call throws, the callback stores exactly the fixed
string `// transpile error` in the output (the stage, position and message of
the thrown error are discarded), and in every case — success or failure — the
`converting` flag ends up `false`, re-enabling the convert button. -/
theorem claim_C9_error_string_and_flag_reset :
    ∀ (m : String → Except TranspileError String) (s : UIState),
    (∀ err, m s.phpCode = .error err →
      (transpileCallback m s).jsCode = "// transpile error") ∧
    (transpileCallback m s).converting = false ∧
    (runTranspile (some m) s).converting = false := by
  intro m s
  refine ⟨?_, ?_, ?_⟩
  · intro err h
    simp [transpileCallback, h]
  · unfold transpileCallback
    cases m s.phpCode <;> rfl
  · show (transpileCallback m { s with converting := true }).converting = false
    unfold transpileCallback
    cases m ({ s with converting := true } : UIState).phpCode <;> rfl

/-- Witness for C9: a module stub that always throws, run from the initial
state. -/
theorem claim_C9_witness :
    (transpileCallback throwingModule initialState).jsCode = "// transpile error" ∧
    (transpileCallback throwingModule initialState).converting = false :=
  ⟨(claim_C9_error_string_and_flag_reset throwingModule initialState).1
      ⟨"lex", 0, "boom"⟩ rfl,
    (claim_C9_error_string_and_flag_reset throwingModule initialState).2.1⟩

/-- C10: the clear action empties both the PHP input text and the JavaScript
output text, and the copy-to-clipboard button is disabled exactly when the
JavaScript output text is empty. -/
theorem claim_C10_clear_and_copy_disabled : ∀ s : UIState,
    (clearAll s).phpCode = "" ∧ (clearAll s).jsCode = "" ∧
    (copyDisabled s = true ↔ s.jsCode = "") := by
  intro s
  refine ⟨rfl, rfl, ?_⟩
  simp [copyDisabled]


end CodeConverter
